import Mathlib

/-!
Confluo query planner (`libconfluo/src/planner/query_planner.cc`).

A shallow embedding of `query_planner::plan`, `merge_range`, `add_range` and
`optimize_minterm`, followed by theorems about them.

Conventions of the embedding:

* a `std::map<uint32_t, key_range>` is an association list kept in strictly ascending
  key order, so that list order is the iteration order of the map;
* a thrown exception is an `Except.error`;
* `bool add_range(key_range_map&, ...)` passes the map explicitly and returns it next to
  the flag;
* the key type (`byte_string`), `mutable_value::to_key` and the pre-increment and
  pre-decrement of keys are not defined in the planner source: the planner is parametric
  in them (`key_ops`), and `bucket_keys` is one instance, used for concrete evaluation.
-/

namespace confluo

/-! ## Data model -/

/-- Relational operator carried by a compiled predicate. `INVALID c` stands for a stored
value that is none of the six enumerators. -/
inductive reational_op_id where
  | EQ
  | NEQ
  | LT
  | GT
  | LE
  | GE
  | INVALID (code : Nat)
deriving DecidableEq, Repr

/-- The six enumerators of `reational_op_id`. -/
def reational_op_id.is_defined : reational_op_id → Bool
  | .INVALID _ => false
  | _ => true

/-- Closed range of keys, `std::pair<byte_string, byte_string>`: `(low, high)`. -/
abbrev key_range (K : Type) := K × K

/-- The part of `column_t` read by the planner. -/
structure column_t (V B : Type) where
  is_indexed : Bool
  index_id : Nat
  index_bucket_size : B
  min : V
  max : V

/-- Compiled predicate: field index, operator, literal. -/
structure compiled_predicate (V : Type) where
  field_idx : Nat
  op : reational_op_id
  value : V
deriving DecidableEq, Repr

/-- Conjunction of predicates, in iteration order. -/
abbrev compiled_minterm (V : Type) := List (compiled_predicate V)

/-- Disjunction of minterms, in iteration order. -/
abbrev compiled_expression (V : Type) := List (compiled_minterm V)

/-- Tags returned by `query_op::op_type()`. -/
inductive query_op_type where
  | D_NO_OP
  | D_SCAN_OP
  | D_NO_VALID_INDEX_OP
  | D_INDEX_OP
deriving DecidableEq, Repr

/-- The query operators built by the planner. `index_op i r` is
`index_op(idx_list_->at(i), r)`; the index is represented by its identifier. -/
inductive query_op (K : Type) where
  | no_op
  | no_valid_index_op
  | index_op (index_id : Nat) (range : key_range K)
  | full_scan_op
deriving DecidableEq, Repr

/-- Tag of an operator, `query_op::op_type()`. -/
def query_op.op_type {K : Type} : query_op K → query_op_type
  | .no_op => .D_NO_OP
  | .no_valid_index_op => .D_NO_VALID_INDEX_OP
  | .index_op _ _ => .D_INDEX_OP
  | .full_scan_op => .D_SCAN_OP

/-- Exceptions thrown by the planner. -/
inductive planner_exception where
  | invalid_operation_exception
  | illegal_state_exception
deriving DecidableEq, Repr

deriving instance DecidableEq for Except

/-- Key operations the planner calls but does not define: `mutable_value::to_key`,
`byte_string::operator++`, `byte_string::operator--` and the default-constructed
`byte_string`. -/
structure key_ops (V B K : Type) where
  to_key : V → B → K
  incr : K → K
  decr : K → K
  empty : K

/-- The planner object: the schema view (`schema_`, indexed by field index), the cost
oracle `idx_list_->at(id)->approx_count(low, high)`, and the key operations.
`min_id_uninit` is the indeterminate content of the local `min_id` of `optimize_minterm`,
which the source declares without an initialiser. -/
structure query_planner (V B K : Type) where
  schema_ : Nat → column_t V B
  approx_count : Nat → K → K → Nat
  keys : key_ops V B K
  min_id_uninit : Nat

/-- The constant `UINT64_MAX`. -/
def UINT64_MAX : Nat := 2 ^ 64 - 1

/-! ## The key-range map -/

/-- The `std::map<uint32_t, key_range>` of one minterm, entries in ascending key order. -/
abbrev key_range_map (K : Type) := List (Nat × key_range K)

/-- Lookup, `ranges.find(id)`; `none` is `ranges.end()`. -/
def key_range_map.find {K : Type} : key_range_map K → Nat → Option (key_range K)
  | [], _ => none
  | (k, r) :: rest, id => if k = id then some r else key_range_map.find rest id

/-- Assignment, `ranges[id] = r`: replaces the entry of `id` or inserts it in key order. -/
def key_range_map.assign {K : Type} : key_range_map K → Nat → key_range K → key_range_map K
  | [], id, r => [(id, r)]
  | (k, r0) :: rest, id, r =>
    if id < k then (id, r) :: (k, r0) :: rest
    else if id = k then (k, r) :: rest
    else (k, r0) :: key_range_map.assign rest id r

/-- Read access `ranges[id]`: an absent key yields a default-constructed range. -/
def key_range_map.index {K : Type} (ranges : key_range_map K) (id : Nat) (empty : K) :
    key_range K :=
  match key_range_map.find ranges id with
  | some r => r
  | none => (empty, empty)

/-- Validity of a range, `r.first <= r.second`. -/
def key_range_valid {K : Type} [LinearOrder K] (r : key_range K) : Prop := r.1 ≤ r.2

instance {K : Type} [LinearOrder K] (r : key_range K) : Decidable (key_range_valid r) :=
  inferInstanceAs (Decidable (r.1 ≤ r.2))

/-- Membership of a key in a closed range. -/
def key_range_mem {K : Type} [LinearOrder K] (k : K) (r : key_range K) : Prop :=
  r.1 ≤ k ∧ k ≤ r.2

/-! ## The planner -/

section planner

variable {V B K : Type} [LinearOrder K]

/-- Source `query_planner::merge_range`. -/
def merge_range (r1 r2 : key_range K) : key_range K :=
  (max r1.1 r2.1, min r1.2 r2.2)

/-- Source `query_planner::add_range`. The returned map is `ranges` after the call. -/
def add_range (ranges : key_range_map K) (id : Nat) (r : key_range K) :
    Bool × key_range_map K :=
  let r_m :=
    match key_range_map.find ranges id with
    | some r0 => merge_range r0 r
    | none => r
  if r_m.1 ≤ r_m.2 then (true, key_range_map.assign ranges id r_m)
  else (false, ranges)

/-- The `switch (p.op())` of `optimize_minterm`: the key range of one predicate on an
indexed column, or the exception of the `default` branch. -/
def translate_predicate (qp : query_planner V B K) (col : column_t V B)
    (p : compiled_predicate V) : Except planner_exception (key_range K) :=
  let bucket_size := col.index_bucket_size
  match p.op with
  | .EQ => .ok (qp.keys.to_key p.value bucket_size, qp.keys.to_key p.value bucket_size)
  | .GE => .ok (qp.keys.to_key p.value bucket_size, qp.keys.to_key col.max bucket_size)
  | .LE => .ok (qp.keys.to_key col.min bucket_size, qp.keys.to_key p.value bucket_size)
  | .GT =>
    .ok (qp.keys.incr (qp.keys.to_key p.value bucket_size), qp.keys.to_key col.max bucket_size)
  | .LT =>
    .ok (qp.keys.to_key col.min bucket_size, qp.keys.decr (qp.keys.to_key p.value bucket_size))
  | _ => .error .invalid_operation_exception

/-- The first loop of `optimize_minterm`, over the predicates of the minterm, threading
`m_key_ranges`. `ok none` is the early `return no_op`; `ok (some ranges)` is the map with
which the loop falls through. -/
def accumulate_ranges (qp : query_planner V B K) :
    compiled_minterm V → key_range_map K → Except planner_exception (Option (key_range_map K))
  | [], ranges => .ok (some ranges)
  | p :: ps, ranges =>
    let col := qp.schema_ p.field_idx
    if col.is_indexed = true ∧ p.op ≠ .NEQ then
      match translate_predicate qp col p with
      | .error e => .error e
      | .ok r =>
        match add_range ranges col.index_id r with
        | (false, _) => .ok none
        | (true, ranges1) => accumulate_ranges qp ps ranges1
    else accumulate_ranges qp ps ranges

/-- The second loop of `optimize_minterm`, over the entries of the map in key order,
threading `(min_id, min_cost)`. -/
def select_min_cost (qp : query_planner V B K) : key_range_map K → Nat × Nat → Nat × Nat
  | [], st => st
  | (id, r) :: rest, (min_id, min_cost) =>
    let cost := qp.approx_count id r.1 r.2
    if cost < min_cost then select_min_cost qp rest (id, cost)
    else select_min_cost qp rest (min_id, min_cost)

/-- Source `query_planner::optimize_minterm`. -/
def optimize_minterm (qp : query_planner V B K) (m : compiled_minterm V) :
    Except planner_exception (query_op K) :=
  match accumulate_ranges qp m [] with
  | .error e => .error e
  | .ok none => .ok .no_op
  | .ok (some m_key_ranges) =>
    if m_key_ranges.isEmpty then .ok .no_valid_index_op
    else
      let min_id := (select_min_cost qp m_key_ranges (qp.min_id_uninit, UINT64_MAX)).1
      .ok (.index_op min_id (key_range_map.index m_key_ranges min_id qp.keys.empty))

/-- The loop of `plan` over the minterms, threading the plan built so far. -/
def plan_loop (qp : query_planner V B K) :
    compiled_expression V → List (query_op K) → Except planner_exception (List (query_op K))
  | [], acc => .ok acc
  | m :: ms, acc =>
    match optimize_minterm qp m with
    | .error e => .error e
    | .ok op =>
      match op.op_type with
      | .D_NO_OP => plan_loop qp ms acc
      | .D_NO_VALID_INDEX_OP => .ok [.full_scan_op]
      | .D_INDEX_OP => plan_loop qp ms (acc ++ [op])
      | _ => .error .illegal_state_exception

/-- Source `query_planner::plan`: the operators of the returned `query_plan`. -/
def plan (qp : query_planner V B K) (expr : compiled_expression V) :
    Except planner_exception (List (query_op K)) :=
  plan_loop qp expr []

end planner

/-! ## A concrete key domain -/

/-- Modelled from the spec: `to_key`, `++` and `--` on keys, and the empty key, which the
planner source uses without defining. The bucketized key of an integer value is the number
of its bucket (the value divided by the bucket size, rounded down); `next` and `prev` are
the successor and the predecessor of a key. Values and keys are integers and bucket sizes
are natural numbers. -/
def bucket_keys : key_ops Int Nat Int where
  to_key := fun v b => v / (b : Int)
  incr := fun k => k + 1
  decr := fun k => k - 1
  empty := 0

/-- Schema of the scenarios: field 1 is `age`, indexed by index 0 with bucket size
`bucket` over the domain `[0, 120]`; every other field (field 2 is `name`) is not indexed. -/
def age_schema (bucket : Nat) : Nat → column_t Int Nat := fun idx =>
  if idx = 1 then
    { is_indexed := true, index_id := 0, index_bucket_size := bucket, min := 0, max := 120 }
  else
    { is_indexed := false, index_id := 0, index_bucket_size := 1, min := 0, max := 0 }

/-- Planner over `age_schema` whose oracle estimates a range by its width. -/
def age_planner (bucket : Nat) : query_planner Int Nat Int where
  schema_ := age_schema bucket
  approx_count := fun _ lo hi => (hi - lo).toNat
  keys := bucket_keys
  min_id_uninit := 0

/-- Planner over `age_schema 1` whose oracle answers `UINT64_MAX` for every range, and
whose local `min_id` holds `uninit` before the selection loop. -/
def saturated_planner (uninit : Nat) : query_planner Int Nat Int where
  schema_ := age_schema 1
  approx_count := fun _ _ _ => UINT64_MAX
  keys := bucket_keys
  min_id_uninit := uninit

/-- Schema with two indexed columns: field 1 has index 5 and field 2 has index 3, both
with bucket size 1 over `[0, 100]`; no other field is indexed. -/
def two_index_schema : Nat → column_t Int Nat := fun idx =>
  if idx = 1 then
    { is_indexed := true, index_id := 5, index_bucket_size := 1, min := 0, max := 100 }
  else if idx = 2 then
    { is_indexed := true, index_id := 3, index_bucket_size := 1, min := 0, max := 100 }
  else
    { is_indexed := false, index_id := 0, index_bucket_size := 1, min := 0, max := 0 }

/-- Planner over `two_index_schema` whose oracle answers 10 for every range. -/
def tie_planner : query_planner Int Nat Int where
  schema_ := two_index_schema
  approx_count := fun _ _ _ => 10
  keys := bucket_keys
  min_id_uninit := 0

/-- The plan in the words of the specification: run the optimizer on each minterm in
order, drop what is not an index range and keep the index ranges. -/
def assembled_plan {V B K : Type} [LinearOrder K] (qp : query_planner V B K)
    (expr : compiled_expression V) : List (query_op K) :=
  expr.filterMap fun m =>
    match optimize_minterm qp m with
    | .ok (.index_op i r) => some (.index_op i r)
    | _ => none

/-- A predicate contributes a range when its column is indexed and its operator is not
`NEQ`: the guard of the first loop of `optimize_minterm`. -/
def range_contributing {V B K : Type} (qp : query_planner V B K) (p : compiled_predicate V) :
    Prop :=
  (qp.schema_ p.field_idx).is_indexed = true ∧ p.op ≠ .NEQ

instance {V B K : Type} (qp : query_planner V B K) (p : compiled_predicate V) :
    Decidable (range_contributing qp p) :=
  inferInstanceAs (Decidable (_ ∧ _))

/-- The translation table of the specification (section 4.2), for a literal `v`, the
bucketized key `key`, the successor `next` and the predecessor `prev` of a key and the
column bounds `cmin`, `cmax`; no row for an operator outside the table. -/
def table_range {V K : Type} (key : V → K) (next prev : K → K) (cmin cmax : V) :
    reational_op_id → V → Option (key_range K)
  | .EQ, v => some (key v, key v)
  | .GE, v => some (key v, key cmax)
  | .LE, v => some (key cmin, key v)
  | .GT, v => some (next (key v), key cmax)
  | .LT, v => some (key cmin, prev (key v))
  | _, _ => none

/-- The oracle's estimate for an entry of the map, as the second loop of
`optimize_minterm` asks for it. -/
def entry_cost {V B K : Type} (qp : query_planner V B K) (e : Nat × key_range K) : Nat :=
  qp.approx_count e.1 e.2.1 e.2.2

/-- The keys of a map are strictly ascending. -/
def sorted_keys {K : Type} (ranges : key_range_map K) : Prop :=
  ranges.Pairwise fun a b => a.1 < b.1

/-- Meaning of a predicate `(op, v)` for a value `x` of its column. -/
def predicate_holds {V : Type} [LinearOrder V] (op : reational_op_id) (x v : V) : Prop :=
  match op with
  | .EQ => x = v
  | .NEQ => x ≠ v
  | .GE => v ≤ x
  | .LE => x ≤ v
  | .GT => v < x
  | .LT => x < v
  | .INVALID _ => False

instance {V : Type} [LinearOrder V] (op : reational_op_id) (x v : V) :
    Decidable (predicate_holds op x v) := by
  unfold predicate_holds
  cases op <;> infer_instance

instance {K : Type} [LinearOrder K] (k : K) (r : key_range K) : Decidable (key_range_mem k r) :=
  inferInstanceAs (Decidable (_ ∧ _))

/-- The record `rec` (a value for every field) satisfies every predicate of the minterm. -/
def record_matches {V : Type} [LinearOrder V] (rec : Nat → V) (m : compiled_minterm V) :
    Prop :=
  ∀ p ∈ m, predicate_holds p.op (rec p.field_idx) p.value

/-- Every value of the record lies in the domain of its column. -/
def record_in_domain {V B K : Type} [LinearOrder V] (qp : query_planner V B K)
    (rec : Nat → V) : Prop :=
  ∀ f, (qp.schema_ f).min ≤ rec f ∧ rec f ≤ (qp.schema_ f).max

/-- On every indexed column the keys are monotone in the value, and a key and its
successor (predecessor) leave no room for the key of a larger (smaller) value: the bound
`++to_key(v)` is exact for `> v`, and `--to_key(v)` for `< v`. -/
def exact_keys {V B K : Type} [LinearOrder V] [LinearOrder K] (qp : query_planner V B K) :
    Prop :=
  ∀ f, (qp.schema_ f).is_indexed = true →
    (∀ v x, v ≤ x → qp.keys.to_key v (qp.schema_ f).index_bucket_size
        ≤ qp.keys.to_key x (qp.schema_ f).index_bucket_size) ∧
    (∀ v x, v < x → qp.keys.incr (qp.keys.to_key v (qp.schema_ f).index_bucket_size)
        ≤ qp.keys.to_key x (qp.schema_ f).index_bucket_size) ∧
    (∀ v x, x < v → qp.keys.to_key x (qp.schema_ f).index_bucket_size
        ≤ qp.keys.decr (qp.keys.to_key v (qp.schema_ f).index_bucket_size))

/-- Different indexed columns have different index identifiers. -/
def one_index_per_column {V B K : Type} (qp : query_planner V B K) : Prop :=
  ∀ f g, (qp.schema_ f).is_indexed = true → (qp.schema_ g).is_indexed = true →
    (qp.schema_ f).index_id = (qp.schema_ g).index_id → f = g

/-- Every entry of the map contains the key of the record on the column of its index. -/
def contains_record {V B K : Type} [LinearOrder K] (qp : query_planner V B K) (rec : Nat → V)
    (ranges : key_range_map K) : Prop :=
  ∀ e ∈ ranges, ∀ f, (qp.schema_ f).is_indexed = true → (qp.schema_ f).index_id = e.1 →
    key_range_mem (qp.keys.to_key (rec f) (qp.schema_ f).index_bucket_size) e.2

/-- The translated ranges of the range-contributing predicates of the minterm whose column
carries the index identifier `id`, in minterm order. -/
def ranges_of_index {V B K : Type} (qp : query_planner V B K) (m : compiled_minterm V)
    (id : Nat) : List (key_range K) :=
  m.filterMap fun p =>
    if range_contributing qp p ∧ (qp.schema_ p.field_idx).index_id = id then
      match translate_predicate qp (qp.schema_ p.field_idx) p with
      | .ok r => some r
      | .error _ => none
    else none

/-- One more range in an intersection: the range itself when it is the first one, and the
`merge_range` with the intersection so far otherwise. -/
def intersect_step {K : Type} [LinearOrder K] (o : Option (key_range K)) (r : key_range K) :
    Option (key_range K) :=
  match o with
  | none => some r
  | some a => some (merge_range a r)

/-- The intersection of all ranges of a list; `none` for the empty list. -/
def intersect_all {K : Type} [LinearOrder K] (l : List (key_range K)) :
    Option (key_range K) :=
  l.foldl intersect_step none

/-- Every range stored in the map is valid. -/
def all_valid {K : Type} [LinearOrder K] (ranges : key_range_map K) : Prop :=
  ∀ e ∈ ranges, key_range_valid e.2

/-! ## The schema builder (`libconfluo/src/schema/schema.cc`) -/

namespace schema

/-- The part of `data_type` read by the schema code: an identifier and the size in bytes. -/
structure data_type where
  id : Nat
  size : Nat
deriving DecidableEq, Repr

/-- What `schema.cc` takes from declarations outside it: the type
`primitive_types::ULONG_TYPE()`; the values `mutable_value(type, type.min())` and
`mutable_value(type, type.max())` of a type; `string_utils::to_upper`; and the ranges of
the unsigned counters `schema_builder::offset_` and `schema_t::record_size_`, whose
arithmetic is modulo `offset_mod` and `record_size_mod`. -/
structure schema_env (M : Type) where
  ULONG_TYPE : data_type
  type_min : data_type → M
  type_max : data_type → M
  to_upper : String → String
  offset_mod : Nat
  record_size_mod : Nat

/-- A column as `schema.cc` builds it, `column_t(idx, offset, type, name, min, max)`: the
record of the constructor arguments. -/
structure column_t (M : Type) where
  idx : Nat
  offset : Nat
  type : data_type
  name : String
  min : M
  max : M
deriving DecidableEq, Repr

/-- The members of `schema_builder`. -/
structure schema_builder (M : Type) where
  user_provided_ts_ : Bool
  offset_ : Nat
  columns_ : List (column_t M)
deriving DecidableEq, Repr

/-- The arguments of one call of `schema_builder::add_column`. -/
structure add_column_args (M : Type) where
  type : data_type
  name : String
  min : M
  max : M
deriving DecidableEq, Repr

/-- Source `schema_builder::schema_builder()`. -/
def schema_builder.init {M : Type} (env : schema_env M) : schema_builder M :=
  { user_provided_ts_ := false
    offset_ := (0 + env.ULONG_TYPE.size) % env.offset_mod
    columns_ := [{ idx := 0, offset := 0, type := env.ULONG_TYPE, name := "TIMESTAMP",
                   min := env.type_min env.ULONG_TYPE, max := env.type_max env.ULONG_TYPE }] }

/-- Source `schema_builder::add_column(type, name, min, max)`; the index of the new column
is `static_cast<uint16_t>(columns_.size())`. -/
def schema_builder.add_column {M : Type} (env : schema_env M) (b : schema_builder M)
    (a : add_column_args M) : Except planner_exception (schema_builder M) :=
  if env.to_upper a.name = "TIMESTAMP" then
    if a.type ≠ env.ULONG_TYPE then .error .invalid_operation_exception
    else .ok { b with user_provided_ts_ := true }
  else
    .ok { b with
      columns_ := b.columns_ ++
        [{ idx := b.columns_.length % 2 ^ 16, offset := b.offset_, type := a.type,
           name := a.name, min := a.min, max := a.max }]
      offset_ := (b.offset_ + a.type.size) % env.offset_mod }

/-- Source `schema_builder::add_column(type, name)`. -/
def schema_builder.add_column_default {M : Type} (env : schema_env M) (b : schema_builder M)
    (type : data_type) (name : String) : Except planner_exception (schema_builder M) :=
  schema_builder.add_column env b
    { type := type, name := name, min := env.type_min type, max := env.type_max type }

/-- A sequence of `add_column` calls; the first exception ends it. -/
def schema_builder.add_columns {M : Type} (env : schema_env M) :
    List (add_column_args M) → schema_builder M → Except planner_exception (schema_builder M)
  | [], b => .ok b
  | a :: rest, b =>
    match schema_builder.add_column env b a with
    | .error e => .error e
    | .ok b1 => schema_builder.add_columns env rest b1

/-- Source `schema_builder::get_columns`. -/
def schema_builder.get_columns {M : Type} (b : schema_builder M) : List (column_t M) :=
  b.columns_

/-- The members `columns_` and `record_size_` of `schema_t` (the name map is not read by
any statement made here). -/
structure schema_t (M : Type) where
  record_size_ : Nat
  columns_ : List (column_t M)

/-- The loop of `schema_t::schema_t(columns)` on `record_size_`. -/
def record_size_loop {M : Type} (env : schema_env M) : List (column_t M) → Nat → Nat
  | [], record_size => record_size
  | column :: rest, record_size =>
    record_size_loop env rest ((record_size + column.type.size) % env.record_size_mod)

/-- Source `schema_t::schema_t(const std::vector<column_t> &columns)`. -/
def schema_t.of_columns {M : Type} (env : schema_env M) (columns : List (column_t M)) :
    schema_t M :=
  { columns_ := columns, record_size_ := record_size_loop env columns 0 }

/-- Source `schema_t::record_size`. -/
def schema_t.record_size {M : Type} (s : schema_t M) : Nat := s.record_size_

/-- The sum of the type sizes of a list of columns. -/
def sizes_sum {M : Type} (columns : List (column_t M)) : Nat :=
  (columns.map fun c => c.type.size).sum

/-- Upper-casing of the letters `a` to `z`, as an instance of `string_utils::to_upper`. -/
def ascii_upper (s : String) : String :=
  String.mk (s.data.map Char.toUpper)

/-- An environment for evaluation: `ULONG_TYPE` has 8 bytes, the least and greatest value
of a type are represented by 0 and 1, and both counters have 64 bits. -/
def env64 : schema_env Nat where
  ULONG_TYPE := { id := 9, size := 8 }
  type_min := fun _ => 0
  type_max := fun _ => 1
  to_upper := ascii_upper
  offset_mod := 2 ^ 64
  record_size_mod := 2 ^ 64

/-- A four-byte type. -/
def INT_TYPE : data_type := { id := 6, size := 4 }

end schema

namespace schema

/-- The layout kept by the builder: `offset_` is the sum of the type sizes of the columns
(in the arithmetic of the counter), the column at position `i` has the index `i` as a
16-bit number and the offset that the counter had after the columns before it, and the
first column is the `ULONG` column `TIMESTAMP`. -/
def layout_invariant {M : Type} (env : schema_env M) (b : schema_builder M) : Prop :=
  b.offset_ = sizes_sum b.columns_ % env.offset_mod ∧
    (∀ i c, b.columns_[i]? = some c →
      c.idx = i % 2 ^ 16 ∧ c.offset = sizes_sum (b.columns_.take i) % env.offset_mod) ∧
    b.columns_[0]? = some (column_t.mk 0 0 env.ULONG_TYPE "TIMESTAMP"
      (env.type_min env.ULONG_TYPE) (env.type_max env.ULONG_TYPE))

end schema

/-- Planner over `two_index_schema` whose oracle answers `UINT64_MAX` for every range, and
whose local `min_id` holds `uninit` before the selection loop. -/
def saturated_tie_planner (uninit : Nat) : query_planner Int Nat Int where
  schema_ := two_index_schema
  approx_count := fun _ _ _ => UINT64_MAX
  keys := bucket_keys
  min_id_uninit := uninit

/-! ## General facts about the loops -/

section lemmas

variable {V B K : Type} [LinearOrder K]

omit [LinearOrder K] in
theorem translate_predicate_defined (qp : query_planner V B K) (col : column_t V B)
    (p : compiled_predicate V) (hd : p.op.is_defined = true) (hn : p.op ≠ .NEQ) :
    ∃ r, translate_predicate qp col p = .ok r := by
  unfold translate_predicate
  cases hop : p.op <;> simp_all [reational_op_id.is_defined]

theorem accumulate_ranges_cons_skip (qp : query_planner V B K) (p : compiled_predicate V)
    (ps : compiled_minterm V) (ranges : key_range_map K) (hg : ¬ range_contributing qp p) :
    accumulate_ranges qp (p :: ps) ranges = accumulate_ranges qp ps ranges := by
  rw [accumulate_ranges]
  exact if_neg hg

theorem accumulate_ranges_cons_error (qp : query_planner V B K) (p : compiled_predicate V)
    (ps : compiled_minterm V) (ranges : key_range_map K) (hg : range_contributing qp p)
    (e : planner_exception)
    (hr : translate_predicate qp (qp.schema_ p.field_idx) p = .error e) :
    accumulate_ranges qp (p :: ps) ranges = .error e := by
  have hg1 : (qp.schema_ p.field_idx).is_indexed = true ∧ p.op ≠ .NEQ := hg
  simp only [accumulate_ranges, if_pos hg1, hr]

theorem accumulate_ranges_cons_invalid (qp : query_planner V B K) (p : compiled_predicate V)
    (ps : compiled_minterm V) (ranges : key_range_map K) (hg : range_contributing qp p)
    (r : key_range K) (hr : translate_predicate qp (qp.schema_ p.field_idx) p = .ok r)
    (hadd : (add_range ranges (qp.schema_ p.field_idx).index_id r).1 = false) :
    accumulate_ranges qp (p :: ps) ranges = .ok none := by
  have hg1 : (qp.schema_ p.field_idx).is_indexed = true ∧ p.op ≠ .NEQ := hg
  simp only [accumulate_ranges, if_pos hg1, hr]
  rcases hx : add_range ranges (qp.schema_ p.field_idx).index_id r with ⟨b, ranges1⟩
  rw [hx] at hadd
  simp only at hadd
  subst hadd
  rfl

theorem accumulate_ranges_cons_valid (qp : query_planner V B K) (p : compiled_predicate V)
    (ps : compiled_minterm V) (ranges : key_range_map K) (hg : range_contributing qp p)
    (r : key_range K) (hr : translate_predicate qp (qp.schema_ p.field_idx) p = .ok r)
    (hadd : (add_range ranges (qp.schema_ p.field_idx).index_id r).1 = true) :
    accumulate_ranges qp (p :: ps) ranges =
      accumulate_ranges qp ps (add_range ranges (qp.schema_ p.field_idx).index_id r).2 := by
  have hg1 : (qp.schema_ p.field_idx).is_indexed = true ∧ p.op ≠ .NEQ := hg
  simp only [accumulate_ranges, if_pos hg1, hr]
  rcases hx : add_range ranges (qp.schema_ p.field_idx).index_id r with ⟨b, ranges1⟩
  rw [hx] at hadd
  simp only at hadd
  subst hadd
  rfl

theorem accumulate_ranges_defined (qp : query_planner V B K) (m : compiled_minterm V)
    (hd : ∀ p ∈ m, p.op.is_defined = true) (ranges : key_range_map K) :
    ∃ o, accumulate_ranges qp m ranges = .ok o := by
  induction m generalizing ranges with
  | nil => exact ⟨_, rfl⟩
  | cons p ps ih =>
    have hps : ∀ q ∈ ps, q.op.is_defined = true := fun q hq => hd q (List.mem_cons_of_mem _ hq)
    by_cases hg : range_contributing qp p
    · obtain ⟨r, hr⟩ := translate_predicate_defined qp (qp.schema_ p.field_idx) p
        (hd p (List.mem_cons_self _ _)) hg.2
      cases hadd : (add_range ranges (qp.schema_ p.field_idx).index_id r).1
      · exact ⟨_, accumulate_ranges_cons_invalid qp p ps ranges hg r hr hadd⟩
      · rw [accumulate_ranges_cons_valid qp p ps ranges hg r hr hadd]
        exact ih hps _
    · rw [accumulate_ranges_cons_skip qp p ps ranges hg]
      exact ih hps ranges

theorem accumulate_ranges_skip (qp : query_planner V B K) (m : compiled_minterm V)
    (hm : ∀ p ∈ m, ¬ range_contributing qp p) (ranges : key_range_map K) :
    accumulate_ranges qp m ranges = .ok (some ranges) := by
  induction m with
  | nil => rfl
  | cons p ps ih =>
    rw [accumulate_ranges_cons_skip qp p ps ranges (hm p (List.mem_cons_self _ _))]
    exact ih fun q hq => hm q (List.mem_cons_of_mem _ hq)

/-- The result of the optimizer is an exception or one of its three operators. -/
theorem optimize_minterm_cases (qp : query_planner V B K) (m : compiled_minterm V) :
    (∃ e, optimize_minterm qp m = .error e) ∨ optimize_minterm qp m = .ok .no_op ∨
      optimize_minterm qp m = .ok .no_valid_index_op ∨
      ∃ i r, optimize_minterm qp m = .ok (.index_op i r) := by
  unfold optimize_minterm
  rcases accumulate_ranges qp m [] with e | o
  · exact Or.inl ⟨e, rfl⟩
  · cases o with
    | none => exact Or.inr (Or.inl rfl)
    | some ranges =>
      by_cases he : ranges.isEmpty = true
      · simp [he]
      · simp [he]

theorem optimize_minterm_defined (qp : query_planner V B K) (m : compiled_minterm V)
    (hd : ∀ p ∈ m, p.op.is_defined = true) :
    optimize_minterm qp m = .ok .no_op ∨ optimize_minterm qp m = .ok .no_valid_index_op ∨
      ∃ i r, optimize_minterm qp m = .ok (.index_op i r) := by
  rcases optimize_minterm_cases qp m with ⟨e, he⟩ | h
  · obtain ⟨o, ho⟩ := accumulate_ranges_defined qp m hd []
    unfold optimize_minterm at he
    rw [ho] at he
    cases o with
    | none => simp at he
    | some ranges =>
      by_cases hemp : ranges.isEmpty = true <;> simp [hemp] at he
  · exact h

theorem optimize_minterm_no_index (qp : query_planner V B K) (m : compiled_minterm V)
    (hm : ∀ p ∈ m, ¬ range_contributing qp p) :
    optimize_minterm qp m = .ok .no_valid_index_op := by
  unfold optimize_minterm
  rw [accumulate_ranges_skip qp m hm]
  rfl

theorem plan_loop_no_op (qp : query_planner V B K) (m : compiled_minterm V)
    (ms : compiled_expression V) (acc : List (query_op K))
    (h : optimize_minterm qp m = .ok .no_op) :
    plan_loop qp (m :: ms) acc = plan_loop qp ms acc := by
  rw [plan_loop, h]; rfl

theorem plan_loop_no_valid_index_op (qp : query_planner V B K) (m : compiled_minterm V)
    (ms : compiled_expression V) (acc : List (query_op K))
    (h : optimize_minterm qp m = .ok .no_valid_index_op) :
    plan_loop qp (m :: ms) acc = .ok [.full_scan_op] := by
  rw [plan_loop, h]; rfl

theorem plan_loop_index_op (qp : query_planner V B K) (m : compiled_minterm V)
    (ms : compiled_expression V) (acc : List (query_op K)) (i : Nat) (r : key_range K)
    (h : optimize_minterm qp m = .ok (.index_op i r)) :
    plan_loop qp (m :: ms) acc = plan_loop qp ms (acc ++ [.index_op i r]) := by
  rw [plan_loop, h]; rfl

theorem plan_loop_error (qp : query_planner V B K) (m : compiled_minterm V)
    (ms : compiled_expression V) (acc : List (query_op K)) (e : planner_exception)
    (h : optimize_minterm qp m = .error e) :
    plan_loop qp (m :: ms) acc = .error e := by
  rw [plan_loop, h]

theorem plan_loop_full_scan (qp : query_planner V B K)
    (pre : compiled_expression V) (m : compiled_minterm V) (suf : compiled_expression V)
    (hpre : ∀ mt ∈ pre, ∀ p ∈ mt, p.op.is_defined = true)
    (hm : ∀ p ∈ m, ¬ range_contributing qp p) (acc : List (query_op K)) :
    plan_loop qp (pre ++ [m] ++ suf) acc = .ok [.full_scan_op] := by
  induction pre generalizing acc with
  | nil =>
    exact plan_loop_no_valid_index_op qp m suf acc (optimize_minterm_no_index qp m hm)
  | cons mt rest ih =>
    have hrest : ∀ mt1 ∈ rest, ∀ p ∈ mt1, p.op.is_defined = true :=
      fun mt1 h1 => hpre mt1 (List.mem_cons_of_mem _ h1)
    rw [List.cons_append, List.cons_append]
    rcases optimize_minterm_defined qp mt (hpre mt (List.mem_cons_self _ _)) with
      h | h | ⟨i, r, h⟩
    · rw [plan_loop_no_op qp mt _ acc h]; exact ih hrest acc
    · exact plan_loop_no_valid_index_op qp mt _ acc h
    · rw [plan_loop_index_op qp mt _ acc i r h]; exact ih hrest _

theorem plan_loop_assembled (qp : query_planner V B K) (expr : compiled_expression V)
    (hdef : ∀ m ∈ expr, ∀ p ∈ m, p.op.is_defined = true)
    (hno : ∀ m ∈ expr, optimize_minterm qp m ≠ .ok .no_valid_index_op)
    (acc : List (query_op K)) :
    plan_loop qp expr acc = .ok (acc ++ assembled_plan qp expr) := by
  induction expr generalizing acc with
  | nil => simp [plan_loop, assembled_plan]
  | cons m ms ih =>
    have hdef1 : ∀ m1 ∈ ms, ∀ p ∈ m1, p.op.is_defined = true :=
      fun m1 h1 => hdef m1 (List.mem_cons_of_mem _ h1)
    have hno1 : ∀ m1 ∈ ms, optimize_minterm qp m1 ≠ .ok .no_valid_index_op :=
      fun m1 h1 => hno m1 (List.mem_cons_of_mem _ h1)
    have htail := ih hdef1 hno1
    rcases optimize_minterm_defined qp m (hdef m (List.mem_cons_self _ _)) with
      h | h | ⟨i, r, h⟩
    · rw [plan_loop_no_op qp m ms acc h, htail]
      simp [assembled_plan, List.filterMap_cons, h]
    · exact absurd h (hno m (List.mem_cons_self _ _))
    · rw [plan_loop_index_op qp m ms acc i r h, htail]
      simp [assembled_plan, List.filterMap_cons, h]

end lemmas

/-! ## One and two predicates on one column -/

section single

variable {V B K : Type} [LinearOrder K]

theorem add_range_empty_valid (id : Nat) (r : key_range K) (hv : key_range_valid r) :
    add_range ([] : key_range_map K) id r = (true, [(id, r)]) := by
  have hv1 : r.1 ≤ r.2 := hv
  simp [add_range, key_range_map.find, key_range_map.assign, hv1]

theorem add_range_empty_invalid (id : Nat) (r : key_range K) (hv : ¬ key_range_valid r) :
    add_range ([] : key_range_map K) id r = (false, []) := by
  have hv1 : ¬ r.1 ≤ r.2 := hv
  simp [add_range, key_range_map.find, hv1]

theorem add_range_single_valid (id : Nat) (r0 r : key_range K)
    (hv : key_range_valid (merge_range r0 r)) :
    add_range [(id, r0)] id r = (true, [(id, merge_range r0 r)]) := by
  have hv1 : (merge_range r0 r).1 ≤ (merge_range r0 r).2 := hv
  simp [add_range, key_range_map.find, key_range_map.assign, hv1]

theorem add_range_single_invalid (id : Nat) (r0 r : key_range K)
    (hv : ¬ key_range_valid (merge_range r0 r)) :
    add_range [(id, r0)] id r = (false, [(id, r0)]) := by
  have hv1 : ¬ (merge_range r0 r).1 ≤ (merge_range r0 r).2 := hv
  simp [add_range, key_range_map.find, hv1]

theorem merge_range_valid_left (r1 r2 : key_range K)
    (hv : key_range_valid (merge_range r1 r2)) : key_range_valid r1 := by
  have h : max r1.1 r2.1 ≤ min r1.2 r2.2 := hv
  exact le_trans (le_max_left _ _) (le_trans h (min_le_left _ _))

omit [LinearOrder K] in
/-- The selection loop on a map with the single entry `(id, r)` whose estimate is below
`UINT64_MAX`. -/
theorem select_single (qp : query_planner V B K) (id : Nat) (r : key_range K)
    (hcost : qp.approx_count id r.1 r.2 < UINT64_MAX) :
    (select_min_cost qp [(id, r)] (qp.min_id_uninit, UINT64_MAX)).1 = id := by
  simp [select_min_cost, hcost]

theorem optimize_minterm_of_single (qp : query_planner V B K) (m : compiled_minterm V)
    (id : Nat) (r : key_range K) (hacc : accumulate_ranges qp m [] = .ok (some [(id, r)]))
    (hcost : qp.approx_count id r.1 r.2 < UINT64_MAX) :
    optimize_minterm qp m = .ok (.index_op id r) := by
  unfold optimize_minterm
  rw [hacc]
  simp [select_single qp id r hcost, key_range_map.index, key_range_map.find]

theorem optimize_minterm_of_none (qp : query_planner V B K) (m : compiled_minterm V)
    (hacc : accumulate_ranges qp m [] = .ok none) :
    optimize_minterm qp m = .ok .no_op := by
  unfold optimize_minterm
  rw [hacc]

omit [LinearOrder K] in
theorem translate_predicate_table (qp : query_planner V B K) (p : compiled_predicate V)
    (r : key_range K)
    (ht : table_range (fun v => qp.keys.to_key v (qp.schema_ p.field_idx).index_bucket_size)
      qp.keys.incr qp.keys.decr (qp.schema_ p.field_idx).min (qp.schema_ p.field_idx).max
      p.op p.value = some r) :
    translate_predicate qp (qp.schema_ p.field_idx) p = .ok r ∧ p.op ≠ .NEQ := by
  unfold translate_predicate
  cases hop : p.op <;> rw [hop] at ht <;> simp_all [table_range]

/-- Translation table when the selection loop assigns `min_id`: for a minterm made of one
predicate `(op, v)` on an indexed column, where `r` is the row of the table of the specification for `op` (so `op` is one
of `EQ`, `GE`, `LE`, `GT`, `LT`, the operators that have a row), `optimize_minterm` emits exactly `index_op` on the column's
index with range `r` when `r` is a valid range (the oracle's estimate for it being below
`UINT64_MAX`), and emits no range at all (`no_op`) when `r` is not valid. -/
theorem single_predicate_translation (qp : query_planner V B K) (p : compiled_predicate V)
    (r : key_range K) (hidx : (qp.schema_ p.field_idx).is_indexed = true)
    (hrow : table_range (fun v => qp.keys.to_key v (qp.schema_ p.field_idx).index_bucket_size)
      qp.keys.incr qp.keys.decr (qp.schema_ p.field_idx).min (qp.schema_ p.field_idx).max
      p.op p.value = some r) :
    (key_range_valid r →
        qp.approx_count (qp.schema_ p.field_idx).index_id r.1 r.2 < UINT64_MAX →
        optimize_minterm qp [p] = .ok (.index_op (qp.schema_ p.field_idx).index_id r)) ∧
      (¬ key_range_valid r → optimize_minterm qp [p] = .ok .no_op) := by
  obtain ⟨htr, hne⟩ := translate_predicate_table qp p r hrow
  have hg : range_contributing qp p := ⟨hidx, hne⟩
  constructor
  · intro hv hcost
    apply optimize_minterm_of_single qp [p] _ r _ hcost
    rw [accumulate_ranges_cons_valid qp p [] [] hg r htr (by rw [add_range_empty_valid _ r hv]),
      add_range_empty_valid _ r hv]
    rfl
  · intro hv
    apply optimize_minterm_of_none
    exact accumulate_ranges_cons_invalid qp p [] [] hg r htr
      (by rw [add_range_empty_invalid _ r hv])

/-- Instance of the translation table: `age > 10` on the column `age` (bucket 1, domain `[0, 120]`) gives
the row `[11, 120]` of the table. -/
theorem single_predicate_translation_witness :
    table_range (fun v => bucket_keys.to_key v 1) bucket_keys.incr bucket_keys.decr 0 120
        .GT 10 = some (11, 120) ∧
      optimize_minterm (age_planner 1) [⟨1, .GT, 10⟩] = .ok (.index_op 0 (11, 120)) :=
  ⟨by decide,
    (single_predicate_translation (age_planner 1) ⟨1, .GT, 10⟩ (11, 120) (by decide)
      (by decide)).1 (by decide) (by decide)⟩

/-- Two predicates on one column when the selection loop assigns `min_id`: two
range-contributing predicates on the same indexed column, with translated ranges `r1` and `r2`: when `merge_range r1 r2` is valid, `optimize_minterm` returns
`index_op` on the column's index with exactly that range (the oracle's estimate for it
being below `UINT64_MAX`); when it is not valid the result is `no_op`, and the minterm on
its own gives the empty plan, not a full scan. -/
theorem two_predicates_same_column (qp : query_planner V B K) (p1 p2 : compiled_predicate V)
    (r1 r2 : key_range K) (hcol : p2.field_idx = p1.field_idx)
    (h1 : range_contributing qp p1) (h2 : range_contributing qp p2)
    (hr1 : translate_predicate qp (qp.schema_ p1.field_idx) p1 = .ok r1)
    (hr2 : translate_predicate qp (qp.schema_ p1.field_idx) p2 = .ok r2) :
    (key_range_valid (merge_range r1 r2) →
        qp.approx_count (qp.schema_ p1.field_idx).index_id (merge_range r1 r2).1
          (merge_range r1 r2).2 < UINT64_MAX →
        optimize_minterm qp [p1, p2]
          = .ok (.index_op (qp.schema_ p1.field_idx).index_id (merge_range r1 r2))) ∧
      (¬ key_range_valid (merge_range r1 r2) →
        optimize_minterm qp [p1, p2] = .ok .no_op ∧ plan qp [[p1, p2]] = .ok []) := by
  have hc : qp.schema_ p2.field_idx = qp.schema_ p1.field_idx := by rw [hcol]
  have hr2a : translate_predicate qp (qp.schema_ p2.field_idx) p2 = .ok r2 := by
    rw [hc]; exact hr2
  have hstep2 : ∀ (hv1 : key_range_valid r1), accumulate_ranges qp [p1, p2] []
      = accumulate_ranges qp [p2] [((qp.schema_ p1.field_idx).index_id, r1)] := by
    intro hv1
    rw [accumulate_ranges_cons_valid qp p1 [p2] [] h1 r1 hr1
      (by rw [add_range_empty_valid _ r1 hv1]), add_range_empty_valid _ r1 hv1]
  constructor
  · intro hv hcost
    have hv1 : key_range_valid r1 := merge_range_valid_left r1 r2 hv
    apply optimize_minterm_of_single qp [p1, p2] _ _ _ hcost
    rw [hstep2 hv1]
    have hadd := add_range_single_valid (qp.schema_ p1.field_idx).index_id r1 r2 hv
    rw [accumulate_ranges_cons_valid qp p2 [] _ h2 r2 hr2a (by rw [hc, hadd])]
    rw [hc, hadd]
    rfl
  · intro hv
    have hno : optimize_minterm qp [p1, p2] = .ok .no_op := by
      apply optimize_minterm_of_none
      by_cases hv1 : key_range_valid r1
      · rw [hstep2 hv1]
        have hadd := add_range_single_invalid (qp.schema_ p1.field_idx).index_id r1 r2 hv
        exact accumulate_ranges_cons_invalid qp p2 [] _ h2 r2 hr2a (by rw [hc, hadd])
      · exact accumulate_ranges_cons_invalid qp p1 [p2] [] h1 r1 hr1
          (by rw [add_range_empty_invalid _ r1 hv1])
    refine ⟨hno, ?_⟩
    unfold plan
    rw [plan_loop_no_op qp _ [] [] hno]
    rfl

/-- Two scenarios with two predicates on the column `age` (bucket 1, domain `[0, 120]`):
`age >= 30 AND age <= 40` gives the range `[30, 40]`, and `age > 10 AND age < 5` gives
`no_op` and, as the sole minterm, the empty plan. -/
theorem two_predicates_same_column_witness :
    (merge_range ((30 : Int), (120 : Int)) (0, 40) = (30, 40) ∧
        optimize_minterm (age_planner 1) [⟨1, .GE, 30⟩, ⟨1, .LE, 40⟩]
          = .ok (.index_op 0 (30, 40))) ∧
      (¬ key_range_valid (merge_range ((11 : Int), (120 : Int)) (0, 4)) ∧
        optimize_minterm (age_planner 1) [⟨1, .GT, 10⟩, ⟨1, .LT, 5⟩] = .ok .no_op ∧
        plan (age_planner 1) [[⟨1, .GT, 10⟩, ⟨1, .LT, 5⟩]] = .ok []) :=
  ⟨⟨by decide,
      (two_predicates_same_column (age_planner 1) ⟨1, .GE, 30⟩ ⟨1, .LE, 40⟩ (30, 120) (0, 40)
        rfl (by decide) (by decide) (by decide) (by decide)).1 (by decide) (by decide)⟩,
    by decide,
    (two_predicates_same_column (age_planner 1) ⟨1, .GT, 10⟩ ⟨1, .LT, 5⟩ (11, 120) (0, 4)
      rfl (by decide) (by decide) (by decide) (by decide)).2 (by decide)⟩

end single

/-! ## The map stays in key order -/

section order

variable {V B K : Type} [LinearOrder K]

omit [LinearOrder K] in
theorem mem_assign (ranges : key_range_map K) (id : Nat) (r : key_range K)
    (e : Nat × key_range K) (he : e ∈ key_range_map.assign ranges id r) :
    e = (id, r) ∨ e ∈ ranges := by
  induction ranges with
  | nil =>
    simp only [key_range_map.assign, List.mem_singleton] at he
    exact Or.inl he
  | cons hd rest ih =>
    obtain ⟨k, r0⟩ := hd
    simp only [key_range_map.assign] at he
    split_ifs at he with h1 h2
    · rcases List.mem_cons.1 he with h | h
      · exact Or.inl h
      · exact Or.inr h
    · rcases List.mem_cons.1 he with h | h
      · exact Or.inl (by rw [h, h2])
      · exact Or.inr (List.mem_cons_of_mem _ h)
    · rcases List.mem_cons.1 he with h | h
      · exact Or.inr (by rw [h]; exact List.mem_cons_self _ _)
      · rcases ih h with h3 | h3
        · exact Or.inl h3
        · exact Or.inr (List.mem_cons_of_mem _ h3)

omit [LinearOrder K] in
theorem assign_sorted (ranges : key_range_map K) (id : Nat) (r : key_range K)
    (hs : sorted_keys ranges) : sorted_keys (key_range_map.assign ranges id r) := by
  induction ranges with
  | nil => simp [key_range_map.assign, sorted_keys]
  | cons hd rest ih =>
    obtain ⟨k, r0⟩ := hd
    have hs1 := List.pairwise_cons.1 hs
    simp only [key_range_map.assign]
    split_ifs with h1 h2
    · refine List.pairwise_cons.2 ⟨?_, hs⟩
      intro e he
      rcases List.mem_cons.1 he with h | h
      · rw [h]; exact h1
      · exact lt_trans h1 (hs1.1 e h)
    · exact List.pairwise_cons.2 ⟨hs1.1, hs1.2⟩
    · refine List.pairwise_cons.2 ⟨?_, ih hs1.2⟩
      intro e he
      rcases mem_assign rest id r e he with h | h
      · rw [h]; exact lt_of_le_of_ne (not_lt.1 h1) (Ne.symm h2)
      · exact hs1.1 e h

theorem add_range_sorted (ranges : key_range_map K) (id : Nat) (r : key_range K)
    (hs : sorted_keys ranges) : sorted_keys (add_range ranges id r).2 := by
  unfold add_range
  simp only []
  split_ifs
  · exact assign_sorted ranges id _ hs
  · exact hs

theorem accumulate_ranges_sorted (qp : query_planner V B K) (m : compiled_minterm V)
    (ranges out : key_range_map K) (hs : sorted_keys ranges)
    (hacc : accumulate_ranges qp m ranges = .ok (some out)) : sorted_keys out := by
  induction m generalizing ranges with
  | nil =>
    simp only [accumulate_ranges, Except.ok.injEq, Option.some.injEq] at hacc
    rw [← hacc]; exact hs
  | cons p ps ih =>
    by_cases hg : range_contributing qp p
    · rcases htr : translate_predicate qp (qp.schema_ p.field_idx) p with e | r
      · rw [accumulate_ranges_cons_error qp p ps ranges hg e htr] at hacc
        cases hacc
      · cases hadd : (add_range ranges (qp.schema_ p.field_idx).index_id r).1
        · rw [accumulate_ranges_cons_invalid qp p ps ranges hg r htr hadd] at hacc
          cases hacc
        · rw [accumulate_ranges_cons_valid qp p ps ranges hg r htr hadd] at hacc
          exact ih _ (add_range_sorted ranges _ r hs) hacc
    · rw [accumulate_ranges_cons_skip qp p ps ranges hg] at hacc
      exact ih ranges hs hacc

omit [LinearOrder K] in
theorem find_of_split (pre post : key_range_map K) (i : Nat) (r : key_range K)
    (hpre : ∀ e ∈ pre, e.1 ≠ i) :
    key_range_map.find (pre ++ (i, r) :: post) i = some r := by
  induction pre with
  | nil => simp [key_range_map.find]
  | cons hd rest ih =>
    obtain ⟨k, r0⟩ := hd
    have hk : k ≠ i := hpre (k, r0) (List.mem_cons_self _ _)
    simp only [List.cons_append, key_range_map.find, if_neg hk]
    exact ih fun e he => hpre e (List.mem_cons_of_mem _ he)

omit [LinearOrder K] in
/-- The second loop either keeps its initial state, when no entry is cheaper than the
initial cost, or ends on the first entry of least cost. -/
theorem select_min_cost_spec (qp : query_planner V B K) (ranges : key_range_map K)
    (i0 c0 : Nat) :
    ((∀ e ∈ ranges, c0 ≤ entry_cost qp e) ∧ select_min_cost qp ranges (i0, c0) = (i0, c0)) ∨
      ∃ pre r post, ranges = pre ++ ((select_min_cost qp ranges (i0, c0)).1, r) :: post ∧
        entry_cost qp ((select_min_cost qp ranges (i0, c0)).1, r)
          = (select_min_cost qp ranges (i0, c0)).2 ∧
        (select_min_cost qp ranges (i0, c0)).2 < c0 ∧
        (∀ e ∈ pre, (select_min_cost qp ranges (i0, c0)).2 < entry_cost qp e) ∧
        (∀ e ∈ post, (select_min_cost qp ranges (i0, c0)).2 ≤ entry_cost qp e) := by
  induction ranges generalizing i0 c0 with
  | nil => exact Or.inl ⟨fun e he => absurd he (List.not_mem_nil e), rfl⟩
  | cons hd rest ih =>
    obtain ⟨id, r0⟩ := hd
    by_cases hlt : qp.approx_count id r0.1 r0.2 < c0
    · have hstep : select_min_cost qp ((id, r0) :: rest) (i0, c0)
          = select_min_cost qp rest (id, qp.approx_count id r0.1 r0.2) := by
        simp [select_min_cost, hlt]
      rw [hstep]
      rcases ih id (qp.approx_count id r0.1 r0.2) with ⟨hall, heq⟩ | ⟨pre, r, post, h1, h2, h3, h4, h5⟩
      · refine Or.inr ⟨[], r0, rest, ?_, ?_, ?_, ?_, ?_⟩
        · rw [heq]; rfl
        · rw [heq]; rfl
        · rw [heq]; exact hlt
        · intro e he; exact absurd he (List.not_mem_nil e)
        · rw [heq]; exact hall
      · refine Or.inr ⟨(id, r0) :: pre, r, post, ?_, h2, lt_trans h3 hlt, ?_, h5⟩
        · rw [List.cons_append, ← h1]
        · intro e he
          rcases List.mem_cons.1 he with h | h
          · rw [h]; exact h3
          · exact h4 e h
    · have hstep : select_min_cost qp ((id, r0) :: rest) (i0, c0)
          = select_min_cost qp rest (i0, c0) := by
        simp [select_min_cost, hlt]
      rw [hstep]
      rcases ih i0 c0 with ⟨hall, heq⟩ | ⟨pre, r, post, h1, h2, h3, h4, h5⟩
      · refine Or.inl ⟨?_, heq⟩
        intro e he
        rcases List.mem_cons.1 he with h | h
        · rw [h]; exact not_lt.1 hlt
        · exact hall e h
      · refine Or.inr ⟨(id, r0) :: pre, r, post, ?_, h2, h3, ?_, h5⟩
        · rw [List.cons_append, ← h1]
        · intro e he
          rcases List.mem_cons.1 he with h | h
          · rw [h]; exact lt_of_lt_of_le h3 (not_lt.1 hlt)
          · exact h4 e h

/-- When the first loop falls through with the map `ranges` and some entry is estimated
below `UINT64_MAX`, the optimizer returns an entry of the map of least estimate, and among
the entries of least estimate the one with the smallest index identifier. -/
theorem optimize_minterm_select (qp : query_planner V B K) (m : compiled_minterm V)
    (ranges : key_range_map K) (hacc : accumulate_ranges qp m [] = .ok (some ranges))
    (hcheap : ∃ e ∈ ranges, entry_cost qp e < UINT64_MAX) :
    ∃ i r, optimize_minterm qp m = .ok (.index_op i r) ∧ (i, r) ∈ ranges ∧
      (∀ e ∈ ranges, entry_cost qp (i, r) ≤ entry_cost qp e) ∧
      (∀ e ∈ ranges, entry_cost qp e = entry_cost qp (i, r) → i ≤ e.1) := by
  have hs : sorted_keys ranges :=
    accumulate_ranges_sorted qp m [] ranges List.Pairwise.nil hacc
  obtain ⟨e0, he0, hc0⟩ := hcheap
  rcases select_min_cost_spec qp ranges qp.min_id_uninit UINT64_MAX with
    ⟨hall, _⟩ | ⟨pre, r, post, h1, h2, h3, h4, h5⟩
  · exact absurd hc0 (not_lt.2 (hall e0 he0))
  · generalize hsel : select_min_cost qp ranges (qp.min_id_uninit, UINT64_MAX) = sel at *
    obtain ⟨i, c⟩ := sel
    simp only at h1 h2 h3 h4 h5
    have hs1 : sorted_keys (pre ++ (i, r) :: post) := by rw [← h1]; exact hs
    have hsplit := List.pairwise_append.1 hs1
    have hpre : ∀ e ∈ pre, e.1 < i := fun e he => hsplit.2.2 e he (i, r) (List.mem_cons_self _ _)
    have hpost : ∀ e ∈ post, i < e.1 := fun e he => (List.pairwise_cons.1 hsplit.2.1).1 e he
    have hfind : key_range_map.find ranges i = some r := by
      rw [h1]; exact find_of_split pre post i r fun e he => ne_of_lt (hpre e he)
    have hne : ranges.isEmpty = false := by rw [h1]; cases pre <;> rfl
    refine ⟨i, r, ?_, ?_, ?_, ?_⟩
    · unfold optimize_minterm
      rw [hacc]
      simp only [hne, hsel, key_range_map.index, hfind]
      rfl
    · rw [h1]; exact List.mem_append_right _ (List.mem_cons_self _ _)
    · intro e he
      rw [h2]
      rw [h1] at he
      rcases List.mem_append.1 he with h | h
      · exact le_of_lt (h4 e h)
      · rcases List.mem_cons.1 h with h6 | h6
        · rw [h6, h2]
        · exact h5 e h6
    · intro e he hce
      rw [h1] at he
      rcases List.mem_append.1 he with h | h
      · rw [h2] at hce
        exact absurd hce (ne_of_gt (h4 e h))
      · rcases List.mem_cons.1 h with h6 | h6
        · rw [h6]
        · exact le_of_lt (hpost e h6)

theorem saturated_planner_result (uninit : Nat) :
    optimize_minterm (saturated_planner uninit) [⟨1, .EQ, 50⟩]
      = .ok (.index_op uninit (key_range_map.index [(0, (50, 50))] uninit 0)) := by
  have hacc : accumulate_ranges (saturated_planner uninit) [⟨1, .EQ, 50⟩] []
      = .ok (some [(0, (50, 50))]) := by
    simp [accumulate_ranges, saturated_planner, age_schema, translate_predicate, add_range,
      key_range_map.find, key_range_map.assign, bucket_keys]
  unfold optimize_minterm
  rw [hacc]
  simp [select_min_cost, saturated_planner, bucket_keys]

/-- C5 (at the failing input). The column `age` is indexed, the oracle answers
`UINT64_MAX` for every range and the minterm is `age == 50`. The first loop leaves the map
with the single entry `(0, [50, 50])`; the selection loop never assigns `min_id`, so the
optimizer returns an `index_op` on whatever `min_id` held (`uninit`) with the range read
from the map at that key: for `uninit = 7` the index 7 and the default range, which is no
entry of the map. -/
theorem min_cost_selection_at_sentinel :
    accumulate_ranges (saturated_planner 7) [⟨1, .EQ, 50⟩] [] = .ok (some [(0, (50, 50))]) ∧
      (∀ uninit, optimize_minterm (saturated_planner uninit) [⟨1, .EQ, 50⟩]
        = .ok (.index_op uninit (key_range_map.index [(0, (50, 50))] uninit 0))) ∧
      optimize_minterm (saturated_planner 7) [⟨1, .EQ, 50⟩] = .ok (.index_op 7 (0, 0)) ∧
      ((7, ((0 : Int), (0 : Int))) ∉ [(0, ((50 : Int), (50 : Int)))]) :=
  ⟨by decide, saturated_planner_result, by decide, by decide⟩

/-- Tie-breaking below `UINT64_MAX`: when the map with which the first loop falls through has two
entries `e1`, `e2` with different index identifiers and the same estimate, that estimate
being the least of all entries (and below `UINT64_MAX`), the optimizer returns an entry of
that estimate whose index identifier is the smallest among the entries of that estimate; so
the entry with the larger identifier of the two is not the one returned. -/
theorem tie_break_smallest_id (qp : query_planner V B K) (m : compiled_minterm V)
    (ranges : key_range_map K) (e1 e2 : Nat × key_range K)
    (hacc : accumulate_ranges qp m [] = .ok (some ranges))
    (hmem : e1 ∈ ranges ∧ e2 ∈ ranges) (hid : e1.1 < e2.1)
    (htie : entry_cost qp e1 = entry_cost qp e2)
    (hmin : ∀ e ∈ ranges, entry_cost qp e2 ≤ entry_cost qp e)
    (hmax : entry_cost qp e1 < UINT64_MAX) :
    ∃ i r, optimize_minterm qp m = .ok (.index_op i r) ∧ (i, r) ∈ ranges ∧
      entry_cost qp (i, r) = entry_cost qp e1 ∧
      (∀ e ∈ ranges, entry_cost qp e = entry_cost qp e1 → i ≤ e.1) ∧ i ≠ e2.1 := by
  obtain ⟨i, r, hres, hsel, hleast, hsmall⟩ := optimize_minterm_select qp m ranges hacc
    ⟨e1, hmem.1, hmax⟩
  have hcost : entry_cost qp (i, r) = entry_cost qp e1 :=
    le_antisymm (hleast e1 hmem.1) (by rw [htie]; exact hmin (i, r) hsel)
  refine ⟨i, r, hres, hsel, hcost, ?_, ?_⟩
  · intro e he hce
    exact hsmall e he (by rw [hce, hcost])
  · have hle : i ≤ e1.1 := hsmall e1 hmem.1 hcost.symm
    exact ne_of_lt (lt_of_le_of_lt hle hid)

/-- Instance of tie-breaking: field 1 is indexed by index 5 and field 2 by index 3, every estimate
is 10. For `field1 == 7 AND field2 == 9` the map is `(3, [9, 9]), (5, [7, 7])` and the
optimizer returns the entry of index 3, although its predicate comes second. -/
theorem tie_break_smallest_id_witness :
    accumulate_ranges tie_planner [⟨1, .EQ, 7⟩, ⟨2, .EQ, 9⟩] []
        = .ok (some [(3, (9, 9)), (5, (7, 7))]) ∧
      optimize_minterm tie_planner [⟨1, .EQ, 7⟩, ⟨2, .EQ, 9⟩] = .ok (.index_op 3 (9, 9)) ∧
      ∃ i r, optimize_minterm tie_planner [⟨1, .EQ, 7⟩, ⟨2, .EQ, 9⟩] = .ok (.index_op i r) ∧
        (i, r) ∈ [(3, ((9 : Int), (9 : Int))), (5, (7, 7))] ∧
        entry_cost tie_planner (i, r) = entry_cost tie_planner (3, (9, 9)) ∧
        (∀ e ∈ [(3, ((9 : Int), (9 : Int))), (5, (7, 7))],
          entry_cost tie_planner e = entry_cost tie_planner (3, (9, 9)) → i ≤ e.1) ∧
        i ≠ (5, (((7 : Int), (7 : Int)) : key_range Int)).1 :=
  ⟨by decide, by decide,
    tie_break_smallest_id tie_planner [⟨1, .EQ, 7⟩, ⟨2, .EQ, 9⟩] [(3, (9, 9)), (5, (7, 7))]
      (3, (9, 9)) (5, (7, 7)) (by decide) (by decide) (by decide) (by decide) (by decide)
      (by decide)⟩

end order

/-! ## Bucket sizes above one -/

/-- C7 (at the failing input). The column `age` has bucket size 10 and domain `[0, 120]`,
the minterm is `age > 15`. The optimizer returns the index range `[2, 12]`: the key of 15
is 1 and the lower bound is its successor. The value 17 is in the domain and satisfies
`age > 15`, its key is 1, and 1 is not in `[2, 12]`. -/
theorem range_excludes_match_at_bucket_10 :
    optimize_minterm (age_planner 10) [⟨1, .GT, 15⟩] = .ok (.index_op 0 (2, 12)) ∧
      ((0 : Int) ≤ 17 ∧ (17 : Int) ≤ 120) ∧ predicate_holds .GT (17 : Int) 15 ∧
      bucket_keys.to_key 17 10 = 1 ∧ ¬ key_range_mem (bucket_keys.to_key 17 10) (2, 12) := by
  decide

/-- C8 (at the failing input). The column `age` has bucket size 10 and domain `[0, 120]`,
the minterm is `age < 5`. The translated range is `[0, -1]`: the key of 5 is 0 and the
upper bound is its predecessor. The range is invalid, so the optimizer returns `no_op` and
the plan of the expression is empty, although the value 3 is in the domain and satisfies
`age < 5`. -/
theorem unsatisfiable_drops_match_at_bucket_10 :
    translate_predicate (age_planner 10) ((age_planner 10).schema_ 1) ⟨1, .LT, 5⟩
        = .ok (0, -1) ∧
      optimize_minterm (age_planner 10) [⟨1, .LT, 5⟩] = .ok .no_op ∧
      plan (age_planner 10) [[⟨1, .LT, 5⟩]] = .ok [] ∧
      ((0 : Int) ≤ 3 ∧ (3 : Int) ≤ 120) ∧ predicate_holds .LT (3 : Int) 5 := by
  decide

section buckets

variable {V B K : Type} [LinearOrder V] [LinearOrder K]

omit [LinearOrder K] in
theorem find_mem (ranges : key_range_map K) (id : Nat) (r : key_range K)
    (h : key_range_map.find ranges id = some r) : (id, r) ∈ ranges := by
  induction ranges with
  | nil => cases h
  | cons hd rest ih =>
    obtain ⟨k, r0⟩ := hd
    simp only [key_range_map.find] at h
    split_ifs at h with hk
    · cases h
      rw [hk]
      exact List.mem_cons_self _ _
    · exact List.mem_cons_of_mem _ (ih h)

/-- The translated range of a predicate contains the key of every value of the column's
domain that satisfies the predicate, when the keys are exact. -/
theorem translate_predicate_sound (qp : query_planner V B K) (hex : exact_keys qp)
    (p : compiled_predicate V) (x : V) (r : key_range K)
    (hidx : (qp.schema_ p.field_idx).is_indexed = true)
    (hdom : (qp.schema_ p.field_idx).min ≤ x ∧ x ≤ (qp.schema_ p.field_idx).max)
    (hsat : predicate_holds p.op x p.value)
    (htr : translate_predicate qp (qp.schema_ p.field_idx) p = .ok r) :
    key_range_mem (qp.keys.to_key x (qp.schema_ p.field_idx).index_bucket_size) r := by
  obtain ⟨hmono, hnext, hprev⟩ := hex p.field_idx hidx
  unfold translate_predicate at htr
  unfold predicate_holds at hsat
  cases hop : p.op <;> rw [hop] at htr hsat <;> simp only [Except.ok.injEq] at htr hsat
  · rw [← htr, hsat]; exact ⟨le_refl _, le_refl _⟩
  · cases htr
  · rw [← htr]; exact ⟨hmono _ _ hdom.1, hprev _ _ hsat⟩
  · rw [← htr]; exact ⟨hnext _ _ hsat, hmono _ _ hdom.2⟩
  · rw [← htr]; exact ⟨hmono _ _ hdom.1, hmono _ _ hsat⟩
  · rw [← htr]; exact ⟨hmono _ _ hsat, hmono _ _ hdom.2⟩

omit [LinearOrder V] in
theorem add_range_sound (qp : query_planner V B K) (rec : Nat → V)
    (hinj : one_index_per_column qp) (ranges : key_range_map K) (f : Nat) (r : key_range K)
    (hidx : (qp.schema_ f).is_indexed = true)
    (hinv : contains_record qp rec ranges)
    (hr : key_range_mem (qp.keys.to_key (rec f) (qp.schema_ f).index_bucket_size) r) :
    (add_range ranges (qp.schema_ f).index_id r).1 = true ∧
      contains_record qp rec (add_range ranges (qp.schema_ f).index_id r).2 := by
  have hkey : ∀ r_m : key_range K,
      key_range_mem (qp.keys.to_key (rec f) (qp.schema_ f).index_bucket_size) r_m →
      (if r_m.1 ≤ r_m.2 then (true, key_range_map.assign ranges (qp.schema_ f).index_id r_m)
        else (false, ranges)).1 = true ∧
      contains_record qp rec
        (if r_m.1 ≤ r_m.2 then (true, key_range_map.assign ranges (qp.schema_ f).index_id r_m)
          else (false, ranges)).2 := by
    intro r_m hm
    have hv : r_m.1 ≤ r_m.2 := le_trans hm.1 hm.2
    rw [if_pos hv]
    refine ⟨rfl, ?_⟩
    intro e he g hg hid
    rcases mem_assign ranges _ r_m e he with h | h
    · have hgf : g = f := hinj g f hg hidx (by rw [hid, h])
      rw [hgf, h]; exact hm
    · exact hinv e h g hg hid
  unfold add_range
  simp only []
  cases hfind : key_range_map.find ranges (qp.schema_ f).index_id with
  | none => exact hkey r hr
  | some r0 =>
    have hold := hinv _ (find_mem ranges _ r0 hfind) f hidx rfl
    exact hkey (merge_range r0 r)
      ⟨max_le hold.1 hr.1, le_min hold.2 hr.2⟩

theorem accumulate_ranges_sound (qp : query_planner V B K) (rec : Nat → V)
    (hex : exact_keys qp) (hinj : one_index_per_column qp) (hdom : record_in_domain qp rec)
    (m : compiled_minterm V) (hsat : record_matches rec m) (ranges : key_range_map K)
    (hinv : contains_record qp rec ranges) (o : Option (key_range_map K))
    (hacc : accumulate_ranges qp m ranges = .ok o) :
    ∃ out, o = some out ∧ contains_record qp rec out := by
  induction m generalizing ranges with
  | nil =>
    simp only [accumulate_ranges, Except.ok.injEq] at hacc
    exact ⟨ranges, hacc.symm, hinv⟩
  | cons p ps ih =>
    have hps : record_matches rec ps := fun q hq => hsat q (List.mem_cons_of_mem _ hq)
    by_cases hg : range_contributing qp p
    · rcases htr : translate_predicate qp (qp.schema_ p.field_idx) p with e | r
      · rw [accumulate_ranges_cons_error qp p ps ranges hg e htr] at hacc
        cases hacc
      · have hr := translate_predicate_sound qp hex p (rec p.field_idx) r hg.1
          (hdom p.field_idx) (hsat p (List.mem_cons_self _ _)) htr
        obtain ⟨hadd, hinv1⟩ := add_range_sound qp rec hinj ranges p.field_idx r hg.1 hinv hr
        rw [accumulate_ranges_cons_valid qp p ps ranges hg r htr hadd] at hacc
        exact ih hps _ hinv1 hacc
    · rw [accumulate_ranges_cons_skip qp p ps ranges hg] at hacc
      exact ih hps ranges hinv hacc

/-- With exact keys and one index per column, an index range returned for a minterm
contains the key of every record that lies in the column domains and satisfies the minterm
(some entry of the map being estimated below `UINT64_MAX`). -/
theorem index_range_sound_of_exact_keys (qp : query_planner V B K) (rec : Nat → V)
    (hex : exact_keys qp) (hinj : one_index_per_column qp) (hdom : record_in_domain qp rec)
    (m : compiled_minterm V) (hsat : record_matches rec m) (i : Nat) (r : key_range K)
    (hres : optimize_minterm qp m = .ok (.index_op i r))
    (hcheap : ∀ ranges, accumulate_ranges qp m [] = .ok (some ranges) →
      ∃ e ∈ ranges, entry_cost qp e < UINT64_MAX)
    (f : Nat) (hidx : (qp.schema_ f).is_indexed = true) (hid : (qp.schema_ f).index_id = i) :
    key_range_mem (qp.keys.to_key (rec f) (qp.schema_ f).index_bucket_size) r := by
  rcases hacc : accumulate_ranges qp m [] with e | o
  · unfold optimize_minterm at hres
    rw [hacc] at hres
    cases hres
  · obtain ⟨out, ho, hinv⟩ := accumulate_ranges_sound qp rec hex hinj hdom m hsat []
      (fun e he => absurd he (List.not_mem_nil e)) o hacc
    rw [ho] at hacc
    obtain ⟨i1, r1, hsel, hmem, _, _⟩ := optimize_minterm_select qp m out hacc (hcheap out hacc)
    rw [hres] at hsel
    cases hsel
    exact hinv (i, r) hmem f hidx hid

/-- With exact keys and one index per column, a minterm that some record in the column
domains satisfies is never found unsatisfiable. -/
theorem no_op_sound_of_exact_keys (qp : query_planner V B K) (rec : Nat → V)
    (hex : exact_keys qp) (hinj : one_index_per_column qp) (hdom : record_in_domain qp rec)
    (m : compiled_minterm V) (hsat : record_matches rec m) :
    optimize_minterm qp m ≠ .ok .no_op := by
  intro hres
  rcases hacc : accumulate_ranges qp m [] with e | o
  · unfold optimize_minterm at hres
    rw [hacc] at hres
    cases hres
  · obtain ⟨out, ho, _⟩ := accumulate_ranges_sound qp rec hex hinj hdom m hsat []
      (fun e he => absurd he (List.not_mem_nil e)) o hacc
    rw [ho] at hacc
    unfold optimize_minterm at hres
    rw [hacc] at hres
    by_cases hemp : out.isEmpty = true <;> simp [hemp] at hres

omit [LinearOrder V] in
/-- Whatever the key operations are, when the successor of a key is above the key, the
range of `> v` misses the key of every value in the bucket of `v`. -/
theorem gt_range_misses_bucket (qp : query_planner V B K) (p : compiled_predicate V) (x : V)
    (r : key_range K) (hop : p.op = .GT)
    (hsame : qp.keys.to_key x (qp.schema_ p.field_idx).index_bucket_size
      = qp.keys.to_key p.value (qp.schema_ p.field_idx).index_bucket_size)
    (hincr : qp.keys.to_key p.value (qp.schema_ p.field_idx).index_bucket_size
      < qp.keys.incr (qp.keys.to_key p.value (qp.schema_ p.field_idx).index_bucket_size))
    (htr : translate_predicate qp (qp.schema_ p.field_idx) p = .ok r) :
    ¬ key_range_mem (qp.keys.to_key x (qp.schema_ p.field_idx).index_bucket_size) r := by
  unfold translate_predicate at htr
  rw [hop] at htr
  simp only [Except.ok.injEq] at htr
  rw [← htr, hsame]
  intro hmem
  exact absurd hmem.1 (not_le.2 hincr)

omit [LinearOrder V] in
/-- Whatever the key operations are, when the predecessor of a key is below the key, the
range of `< v` misses the key of every value in the bucket of `v`. -/
theorem lt_range_misses_bucket (qp : query_planner V B K) (p : compiled_predicate V) (x : V)
    (r : key_range K) (hop : p.op = .LT)
    (hsame : qp.keys.to_key x (qp.schema_ p.field_idx).index_bucket_size
      = qp.keys.to_key p.value (qp.schema_ p.field_idx).index_bucket_size)
    (hdecr : qp.keys.decr (qp.keys.to_key p.value (qp.schema_ p.field_idx).index_bucket_size)
      < qp.keys.to_key p.value (qp.schema_ p.field_idx).index_bucket_size)
    (htr : translate_predicate qp (qp.schema_ p.field_idx) p = .ok r) :
    ¬ key_range_mem (qp.keys.to_key x (qp.schema_ p.field_idx).index_bucket_size) r := by
  unfold translate_predicate at htr
  rw [hop] at htr
  simp only [Except.ok.injEq] at htr
  rw [← htr, hsame]
  intro hmem
  exact absurd hmem.2 (not_le.2 hdecr)

end buckets

/-- The keys of `age_planner 1` are exact: with bucket size 1 the key of a value is the
value. -/
theorem age_planner_exact_keys : exact_keys (age_planner 1) := by
  intro f hf
  have hb : ((age_planner 1).schema_ f).index_bucket_size = 1 := by
    simp only [age_planner, age_schema]
    split_ifs <;> rfl
  rw [hb]
  simp only [age_planner, bucket_keys, Nat.cast_one, Int.ediv_one]
  refine ⟨fun v x h => h, fun v x h => ?_, fun v x h => ?_⟩ <;> omega

theorem age_planner_one_index_per_column (bucket : Nat) :
    one_index_per_column (age_planner bucket) := by
  intro f g hf hg _
  have h1 : ∀ k, ((age_planner bucket).schema_ k).is_indexed = true → k = 1 := by
    intro k hk
    by_contra hne
    simp [age_planner, age_schema, hne] at hk
  rw [h1 f hf, h1 g hg]

/-! ## Malformed predicates, and predicates that contribute no range -/

section malformed

variable {V B K : Type} [LinearOrder K]

theorem accumulate_ranges_append (qp : query_planner V B K) (a b : compiled_minterm V)
    (ranges : key_range_map K) :
    accumulate_ranges qp (a ++ b) ranges =
      match accumulate_ranges qp a ranges with
      | .error e => .error e
      | .ok none => .ok none
      | .ok (some ranges1) => accumulate_ranges qp b ranges1 := by
  induction a generalizing ranges with
  | nil => rfl
  | cons p ps ih =>
    rw [List.cons_append]
    by_cases hg : range_contributing qp p
    · rcases htr : translate_predicate qp (qp.schema_ p.field_idx) p with e | r
      · rw [accumulate_ranges_cons_error qp p _ ranges hg e htr,
          accumulate_ranges_cons_error qp p _ ranges hg e htr]
      · cases hadd : (add_range ranges (qp.schema_ p.field_idx).index_id r).1
        · rw [accumulate_ranges_cons_invalid qp p _ ranges hg r htr hadd,
            accumulate_ranges_cons_invalid qp p _ ranges hg r htr hadd]
        · rw [accumulate_ranges_cons_valid qp p _ ranges hg r htr hadd,
            accumulate_ranges_cons_valid qp p _ ranges hg r htr hadd]
          exact ih _
    · rw [accumulate_ranges_cons_skip qp p _ ranges hg,
        accumulate_ranges_cons_skip qp p _ ranges hg]
      exact ih ranges

omit [LinearOrder K] in
theorem translate_predicate_error_kind (qp : query_planner V B K) (col : column_t V B)
    (p : compiled_predicate V) (e : planner_exception)
    (h : translate_predicate qp col p = .error e) : e = .invalid_operation_exception := by
  unfold translate_predicate at h
  cases hop : p.op <;> rw [hop] at h <;> simp at h <;> exact h.symm

theorem accumulate_ranges_error_kind (qp : query_planner V B K) (m : compiled_minterm V)
    (ranges : key_range_map K) (e : planner_exception)
    (h : accumulate_ranges qp m ranges = .error e) : e = .invalid_operation_exception := by
  induction m generalizing ranges with
  | nil => cases h
  | cons p ps ih =>
    by_cases hg : range_contributing qp p
    · rcases htr : translate_predicate qp (qp.schema_ p.field_idx) p with e1 | r
      · rw [accumulate_ranges_cons_error qp p ps ranges hg e1 htr] at h
        cases h
        exact translate_predicate_error_kind qp _ p e htr
      · cases hadd : (add_range ranges (qp.schema_ p.field_idx).index_id r).1
        · rw [accumulate_ranges_cons_invalid qp p ps ranges hg r htr hadd] at h
          cases h
        · rw [accumulate_ranges_cons_valid qp p ps ranges hg r htr hadd] at h
          exact ih _ h
    · rw [accumulate_ranges_cons_skip qp p ps ranges hg] at h
      exact ih ranges h

theorem optimize_minterm_error_kind (qp : query_planner V B K) (m : compiled_minterm V)
    (e : planner_exception) (h : optimize_minterm qp m = .error e) :
    e = .invalid_operation_exception := by
  unfold optimize_minterm at h
  rcases hacc : accumulate_ranges qp m [] with e1 | o
  · rw [hacc] at h
    cases h
    exact accumulate_ranges_error_kind qp m [] e hacc
  · rw [hacc] at h
    cases o with
    | none => cases h
    | some ranges =>
      by_cases hemp : ranges.isEmpty = true <;> simp [hemp] at h

omit [LinearOrder K] in
theorem translate_predicate_undefined (qp : query_planner V B K) (col : column_t V B)
    (p : compiled_predicate V) (hop : p.op.is_defined = false) :
    translate_predicate qp col p = .error .invalid_operation_exception ∧ p.op ≠ .NEQ := by
  unfold translate_predicate
  cases h : p.op <;> rw [h] at hop <;> simp_all [reational_op_id.is_defined]

theorem optimize_minterm_malformed (qp : query_planner V B K)
    (mp : compiled_minterm V) (p : compiled_predicate V) (ms : compiled_minterm V)
    (hmp : accumulate_ranges qp mp [] ≠ .ok none)
    (hidx : (qp.schema_ p.field_idx).is_indexed = true) (hop : p.op.is_defined = false) :
    optimize_minterm qp (mp ++ p :: ms) = .error .invalid_operation_exception := by
  obtain ⟨htr, hne⟩ := translate_predicate_undefined qp (qp.schema_ p.field_idx) p hop
  have hacc : accumulate_ranges qp (mp ++ p :: ms) []
      = .error .invalid_operation_exception := by
    rw [accumulate_ranges_append]
    rcases h : accumulate_ranges qp mp [] with e | o
    · rw [accumulate_ranges_error_kind qp mp [] e h]
    · cases o with
      | none => exact absurd h hmp
      | some ranges1 => exact accumulate_ranges_cons_error qp p ms ranges1 ⟨hidx, hne⟩ _ htr
  unfold optimize_minterm
  rw [hacc]

theorem plan_loop_reaches_error (qp : query_planner V B K)
    (pre : compiled_expression V) (m : compiled_minterm V) (suf : compiled_expression V)
    (hpre : ∀ mt ∈ pre, optimize_minterm qp mt ≠ .ok .no_valid_index_op)
    (hm : optimize_minterm qp m = .error .invalid_operation_exception)
    (acc : List (query_op K)) :
    plan_loop qp (pre ++ [m] ++ suf) acc = .error .invalid_operation_exception := by
  induction pre generalizing acc with
  | nil => exact plan_loop_error qp m suf acc _ hm
  | cons mt rest ih =>
    have hrest : ∀ mt1 ∈ rest, optimize_minterm qp mt1 ≠ .ok .no_valid_index_op :=
      fun mt1 h1 => hpre mt1 (List.mem_cons_of_mem _ h1)
    rw [List.cons_append, List.cons_append]
    rcases optimize_minterm_cases qp mt with ⟨e, h⟩ | h | h | ⟨i, r, h⟩
    · rw [plan_loop_error qp mt _ acc e h, optimize_minterm_error_kind qp mt e h]
    · rw [plan_loop_no_op qp mt _ acc h]; exact ih hrest acc
    · exact absurd h (hpre mt (List.mem_cons_self _ _))
    · rw [plan_loop_index_op qp mt _ acc i r h]; exact ih hrest _

/-- C9 (the claim as stated fails). Three expressions over the column `age` (indexed) and
the column `name` (field 2, not indexed), each with a predicate whose operator is outside
the enumeration, for which `plan` returns a plan: the malformed predicate is on a column
that is not indexed; it comes after a minterm that triggers the full-scan override; it
comes after predicates that already made the range of its minterm invalid. -/
theorem malformed_predicate_without_error :
    (reational_op_id.INVALID 9).is_defined = false ∧
      plan (age_planner 1) [[⟨2, .INVALID 9, 0⟩]] = .ok [.full_scan_op] ∧
      plan (age_planner 1) [[⟨2, .EQ, 7⟩], [⟨1, .INVALID 9, 0⟩]] = .ok [.full_scan_op] ∧
      plan (age_planner 1) [[⟨1, .GT, 10⟩, ⟨1, .LT, 5⟩, ⟨1, .INVALID 9, 0⟩]] = .ok [] := by
  decide

/-- C9 (amended). In an expression `pre ++ [mp ++ p :: ms] ++ suf` where the predicate `p`
is on an indexed column and carries an operator outside the enumeration, no minterm of
`pre` has the optimizer result `no_valid_index_op`, and the predicates `mp` before `p` in
its minterm do not end the first loop on an invalid range, `plan` returns no plan: it
fails with `invalid_operation_exception`. -/
theorem plan_malformed_reached (qp : query_planner V B K) (pre : compiled_expression V)
    (mp : compiled_minterm V) (p : compiled_predicate V) (ms : compiled_minterm V)
    (suf : compiled_expression V)
    (hpre : ∀ mt ∈ pre, optimize_minterm qp mt ≠ .ok .no_valid_index_op)
    (hmp : accumulate_ranges qp mp [] ≠ .ok none)
    (hidx : (qp.schema_ p.field_idx).is_indexed = true) (hop : p.op.is_defined = false) :
    plan qp (pre ++ [mp ++ p :: ms] ++ suf) = .error .invalid_operation_exception :=
  plan_loop_reaches_error qp pre _ suf hpre (optimize_minterm_malformed qp mp p ms hmp hidx hop)
    []

/-- Instance of the amended C9: in `(age == 50) OR (age >= 30 AND age <invalid> 0 AND
age <= 40) OR (name == 7)` the malformed predicate is reached, and planning fails. -/
theorem plan_malformed_reached_witness :
    (∀ mt ∈ [[(⟨1, .EQ, 50⟩ : compiled_predicate Int)]],
        optimize_minterm (age_planner 1) mt ≠ .ok .no_valid_index_op) ∧
      accumulate_ranges (age_planner 1) [⟨1, .GE, 30⟩] [] ≠ .ok none ∧
      plan (age_planner 1)
        ([[⟨1, .EQ, 50⟩]] ++ [[⟨1, .GE, 30⟩] ++ ⟨1, .INVALID 9, 0⟩ :: [⟨1, .LE, 40⟩]]
          ++ [[⟨2, .EQ, 7⟩]])
        = .error .invalid_operation_exception :=
  ⟨by decide, by decide,
    plan_malformed_reached (age_planner 1) [[⟨1, .EQ, 50⟩]] [⟨1, .GE, 30⟩] ⟨1, .INVALID 9, 0⟩
      [⟨1, .LE, 40⟩] [[⟨2, .EQ, 7⟩]] (by decide) (by decide) (by decide) (by decide)⟩

/-- Scenario of C10: `age == 50 AND name != 7`, with `name` not indexed, gives the index
range `[50, 50]` on the index of `age`, as `age == 50` alone does. -/
theorem neq_scenario :
    optimize_minterm (age_planner 1) [⟨1, .EQ, 50⟩, ⟨2, .NEQ, 7⟩]
        = .ok (.index_op 0 (50, 50)) ∧
      optimize_minterm (age_planner 1) [⟨1, .EQ, 50⟩] = .ok (.index_op 0 (50, 50)) ∧
      plan (age_planner 1) [[⟨1, .EQ, 50⟩, ⟨2, .NEQ, 7⟩]] = .ok [.index_op 0 (50, 50)] := by
  decide

end malformed

/-! ## Plan assembly -/

section assembly

variable {V B K : Type} [LinearOrder K]

/-- C1. Full-scan override: in an expression `pre ++ [m] ++ suf` whose minterms before `m`
carry only the six defined operators, and whose minterm `m` has no predicate that is both
on an indexed column and not `NEQ`, `plan` returns exactly `[full_scan_op]`, whatever
`pre` contributed and whatever `suf` is (malformed predicates of `suf` included). -/
theorem plan_full_scan_override (qp : query_planner V B K)
    (pre : compiled_expression V) (m : compiled_minterm V) (suf : compiled_expression V)
    (hpre : ∀ mt ∈ pre, ∀ p ∈ mt, p.op.is_defined = true)
    (hm : ∀ p ∈ m, ¬ ((qp.schema_ p.field_idx).is_indexed = true ∧ p.op ≠ .NEQ)) :
    plan qp (pre ++ [m] ++ suf) = .ok [.full_scan_op] :=
  plan_loop_full_scan qp pre m suf hpre hm []

/-- Scenario of C1: `(age >= 30 AND age <= 40) OR (name == 7) OR (age <invalid> 0)` with
`name` not indexed gives `[full_scan_op]`; the malformed predicate after the overriding
minterm is never looked at. -/
theorem plan_full_scan_override_witness :
    (∀ mt ∈ [[(⟨1, .GE, 30⟩ : compiled_predicate Int), ⟨1, .LE, 40⟩]],
        ∀ p ∈ mt, p.op.is_defined = true) ∧
      (∀ p ∈ [(⟨2, .EQ, 7⟩ : compiled_predicate Int)],
        ¬ (((age_planner 1).schema_ p.field_idx).is_indexed = true ∧ p.op ≠ .NEQ)) ∧
      plan (age_planner 1)
        ([[⟨1, .GE, 30⟩, ⟨1, .LE, 40⟩]] ++ [[⟨2, .EQ, 7⟩]] ++ [[⟨1, .INVALID 9, 0⟩]])
        = .ok [.full_scan_op] :=
  ⟨by decide, by decide,
    plan_full_scan_override (age_planner 1) [[⟨1, .GE, 30⟩, ⟨1, .LE, 40⟩]] [⟨2, .EQ, 7⟩]
      [[⟨1, .INVALID 9, 0⟩]] (by decide) (by decide)⟩

/-- C2. Plan assembly: when every predicate carries a defined operator and no minterm's
optimizer result is `no_valid_index_op`, `plan` returns the index ranges of the minterms in
minterm order, the other results dropped; the plan is empty when every minterm gives
`no_op` (in particular for the expression without minterms), and it is never longer than
the expression. -/
theorem plan_assembly (qp : query_planner V B K) (expr : compiled_expression V)
    (hdef : ∀ m ∈ expr, ∀ p ∈ m, p.op.is_defined = true)
    (hno : ∀ m ∈ expr, optimize_minterm qp m ≠ .ok .no_valid_index_op) :
    plan qp expr = .ok (assembled_plan qp expr) ∧
      ((∀ m ∈ expr, optimize_minterm qp m = .ok .no_op) → plan qp expr = .ok []) ∧
      (assembled_plan qp expr).length ≤ expr.length := by
  have hplan : plan qp expr = .ok (assembled_plan qp expr) := by
    unfold plan
    rw [plan_loop_assembled qp expr hdef hno []]
    rfl
  refine ⟨hplan, ?_, List.length_filterMap_le _ _⟩
  intro hall
  rw [hplan]
  congr 1
  unfold assembled_plan
  rw [List.filterMap_eq_nil_iff]
  intro m hmem
  rw [hall m hmem]

/-- Instance of C2: `(age > 10 AND age < 5) OR (age >= 30 AND age <= 40) OR (age == 50)`
gives the two index ranges of the last two minterms, in that order. -/
theorem plan_assembly_witness :
    (∀ m ∈ [[(⟨1, .GT, 10⟩ : compiled_predicate Int), ⟨1, .LT, 5⟩],
        [⟨1, .GE, 30⟩, ⟨1, .LE, 40⟩], [⟨1, .EQ, 50⟩]], ∀ p ∈ m, p.op.is_defined = true) ∧
      (∀ m ∈ [[(⟨1, .GT, 10⟩ : compiled_predicate Int), ⟨1, .LT, 5⟩],
        [⟨1, .GE, 30⟩, ⟨1, .LE, 40⟩], [⟨1, .EQ, 50⟩]],
        optimize_minterm (age_planner 1) m ≠ .ok .no_valid_index_op) ∧
      assembled_plan (age_planner 1) [[⟨1, .GT, 10⟩, ⟨1, .LT, 5⟩],
        [⟨1, .GE, 30⟩, ⟨1, .LE, 40⟩], [⟨1, .EQ, 50⟩]]
        = [.index_op 0 (30, 40), .index_op 0 (50, 50)] ∧
      plan (age_planner 1) [[⟨1, .GT, 10⟩, ⟨1, .LT, 5⟩],
        [⟨1, .GE, 30⟩, ⟨1, .LE, 40⟩], [⟨1, .EQ, 50⟩]]
        = .ok (assembled_plan (age_planner 1) [[⟨1, .GT, 10⟩, ⟨1, .LT, 5⟩],
        [⟨1, .GE, 30⟩, ⟨1, .LE, 40⟩], [⟨1, .EQ, 50⟩]]) :=
  ⟨by decide, by decide, by decide,
    (plan_assembly (age_planner 1) [[⟨1, .GT, 10⟩, ⟨1, .LT, 5⟩],
        [⟨1, .GE, 30⟩, ⟨1, .LE, 40⟩], [⟨1, .EQ, 50⟩]] (by decide) (by decide)).1⟩

end assembly

/-! ## Shape of the plan and outcomes of the optimizer -/

section shape

variable {V B K : Type} [LinearOrder K]

/-- What the loop of `plan` returns is the single full scan, or the plan it started with
followed by index ranges that the optimizer returned for minterms of the expression. -/
theorem plan_loop_members (qp : query_planner V B K) (expr : compiled_expression V)
    (acc pl : List (query_op K)) (h : plan_loop qp expr acc = .ok pl) :
    pl = [.full_scan_op] ∨
      ∀ op ∈ pl, op ∈ acc ∨
        ∃ m ∈ expr, ∃ i r, op = .index_op i r ∧ optimize_minterm qp m = .ok (.index_op i r) := by
  induction expr generalizing acc with
  | nil =>
    simp only [plan_loop, Except.ok.injEq] at h
    rw [← h]
    exact Or.inr fun op hop => Or.inl hop
  | cons m ms ih =>
    rcases optimize_minterm_cases qp m with ⟨e, hm⟩ | hm | hm | ⟨i, r, hm⟩
    · rw [plan_loop_error qp m ms acc e hm] at h
      cases h
    · rw [plan_loop_no_op qp m ms acc hm] at h
      rcases ih acc h with h1 | h1
      · exact Or.inl h1
      · refine Or.inr fun op hop => ?_
        rcases h1 op hop with h2 | ⟨m1, hm1, h2⟩
        · exact Or.inl h2
        · exact Or.inr ⟨m1, List.mem_cons_of_mem _ hm1, h2⟩
    · rw [plan_loop_no_valid_index_op qp m ms acc hm] at h
      cases h
      exact Or.inl rfl
    · rw [plan_loop_index_op qp m ms acc i r hm] at h
      rcases ih _ h with h1 | h1
      · exact Or.inl h1
      · refine Or.inr fun op hop => ?_
        rcases h1 op hop with h2 | ⟨m1, hm1, h2⟩
        · rcases List.mem_append.1 h2 with h3 | h3
          · exact Or.inl h3
          · rw [List.mem_singleton.1 h3]
            exact Or.inr ⟨m, List.mem_cons_self _ _, i, r, rfl, hm⟩
        · exact Or.inr ⟨m1, List.mem_cons_of_mem _ hm1, h2⟩

/-- A plan that the loop of `plan` returns without passing through the full-scan branch
is not the full scan: the full scan comes from a minterm with the result
`no_valid_index_op`, unless the loop started with it. -/
theorem plan_loop_full_scan_origin (qp : query_planner V B K) (expr : compiled_expression V)
    (acc pl : List (query_op K)) (h : plan_loop qp expr acc = .ok pl)
    (hfs : query_op.full_scan_op ∈ pl) :
    query_op.full_scan_op ∈ acc ∨ ∃ m ∈ expr, optimize_minterm qp m = .ok .no_valid_index_op := by
  induction expr generalizing acc with
  | nil =>
    simp only [plan_loop, Except.ok.injEq] at h
    rw [← h] at hfs
    exact Or.inl hfs
  | cons m ms ih =>
    rcases optimize_minterm_cases qp m with ⟨e, hm⟩ | hm | hm | ⟨i, r, hm⟩
    · rw [plan_loop_error qp m ms acc e hm] at h
      cases h
    · rw [plan_loop_no_op qp m ms acc hm] at h
      rcases ih acc h with h1 | ⟨m1, hm1, h2⟩
      · exact Or.inl h1
      · exact Or.inr ⟨m1, List.mem_cons_of_mem _ hm1, h2⟩
    · exact Or.inr ⟨m, List.mem_cons_self _ _, hm⟩
    · rw [plan_loop_index_op qp m ms acc i r hm] at h
      rcases ih _ h with h1 | ⟨m1, hm1, h2⟩
      · rcases List.mem_append.1 h1 with h3 | h3
        · exact Or.inl h3
        · cases List.mem_singleton.1 h3
      · exact Or.inr ⟨m1, List.mem_cons_of_mem _ hm1, h2⟩

/-- C11. Plan shape: every plan returned by `plan` is exactly `[full_scan_op]` or a
(possibly empty) list of `index_op` entries only; so `full_scan_op` never stands next to
another operator, and `no_op` and `no_valid_index_op` never occur in a returned plan. -/
theorem plan_shape (qp : query_planner V B K) (expr : compiled_expression V)
    (pl : List (query_op K)) (h : plan qp expr = .ok pl) :
    (pl = [.full_scan_op] ∨ ∀ op ∈ pl, ∃ i r, op = .index_op i r) ∧
      (query_op.full_scan_op ∈ pl → pl = [.full_scan_op]) ∧
      query_op.no_op ∉ pl ∧ query_op.no_valid_index_op ∉ pl := by
  have hshape : pl = [.full_scan_op] ∨ ∀ op ∈ pl, ∃ i r, op = query_op.index_op i r := by
    rcases plan_loop_members qp expr [] pl h with h1 | h1
    · exact Or.inl h1
    · refine Or.inr fun op hop => ?_
      rcases h1 op hop with h2 | ⟨_, _, i, r, h2, _⟩
      · exact absurd h2 (List.not_mem_nil op)
      · exact ⟨i, r, h2⟩
  refine ⟨hshape, ?_, ?_, ?_⟩
  · intro hfs
    rcases hshape with h1 | h1
    · exact h1
    · obtain ⟨i, r, h2⟩ := h1 _ hfs
      cases h2
  · intro hmem
    rcases hshape with h1 | h1
    · rw [h1] at hmem
      cases List.mem_singleton.1 hmem
    · obtain ⟨i, r, h2⟩ := h1 _ hmem
      cases h2
  · intro hmem
    rcases hshape with h1 | h1
    · rw [h1] at hmem
      cases List.mem_singleton.1 hmem
    · obtain ⟨i, r, h2⟩ := h1 _ hmem
      cases h2

/-- Instance of C11: the plan of `(age >= 30 AND age <= 40) OR (age == 50)` is a list of
two index ranges. -/
theorem plan_shape_witness :
    plan (age_planner 1) [[⟨1, .GE, 30⟩, ⟨1, .LE, 40⟩], [⟨1, .EQ, 50⟩]]
        = .ok [.index_op 0 (30, 40), .index_op 0 (50, 50)] ∧
      (([.index_op 0 (30, 40), .index_op 0 (50, 50)] : List (query_op Int)) = [.full_scan_op] ∨
        ∀ op ∈ ([.index_op 0 (30, 40), .index_op 0 (50, 50)] : List (query_op Int)),
          ∃ i r, op = .index_op i r) :=
  ⟨by decide,
    (plan_shape (age_planner 1) [[⟨1, .GE, 30⟩, ⟨1, .LE, 40⟩], [⟨1, .EQ, 50⟩]] _
      (by decide)).1⟩

end shape

/-! ## When no index is available; exhaustive outcomes -/

section outcomes

variable {V B K : Type} [LinearOrder K]

theorem add_range_ne_nil (ranges : key_range_map K) (id : Nat) (r : key_range K)
    (h : (add_range ranges id r).1 = true) : (add_range ranges id r).2 ≠ [] := by
  unfold add_range at h ⊢
  simp only [] at h ⊢
  split_ifs at h ⊢ with hv
  · cases ranges with
    | nil => simp [key_range_map.assign]
    | cons hd rest =>
      obtain ⟨k, r0⟩ := hd
      simp only [key_range_map.assign]
      split_ifs <;> simp

/-- The first loop falls through with an empty map only if it started with the empty map
and no predicate of the minterm contributes a range. -/
theorem accumulate_ranges_empty (qp : query_planner V B K) (m : compiled_minterm V)
    (ranges : key_range_map K) (h : accumulate_ranges qp m ranges = .ok (some [])) :
    ranges = [] ∧ ∀ p ∈ m, ¬ range_contributing qp p := by
  induction m generalizing ranges with
  | nil =>
    simp only [accumulate_ranges, Except.ok.injEq, Option.some.injEq] at h
    exact ⟨h, fun p hp => absurd hp (List.not_mem_nil p)⟩
  | cons p ps ih =>
    by_cases hg : range_contributing qp p
    · rcases htr : translate_predicate qp (qp.schema_ p.field_idx) p with e | r
      · rw [accumulate_ranges_cons_error qp p ps ranges hg e htr] at h
        cases h
      · cases hadd : (add_range ranges (qp.schema_ p.field_idx).index_id r).1
        · rw [accumulate_ranges_cons_invalid qp p ps ranges hg r htr hadd] at h
          cases h
        · rw [accumulate_ranges_cons_valid qp p ps ranges hg r htr hadd] at h
          exact absurd (ih _ h).1 (add_range_ne_nil ranges _ r hadd)
    · rw [accumulate_ranges_cons_skip qp p ps ranges hg] at h
      obtain ⟨h1, h2⟩ := ih ranges h
      refine ⟨h1, fun q hq => ?_⟩
      rcases List.mem_cons.1 hq with h3 | h3
      · rw [h3]; exact hg
      · exact h2 q h3

theorem optimize_minterm_no_index_iff (qp : query_planner V B K) (m : compiled_minterm V) :
    optimize_minterm qp m = .ok .no_valid_index_op ↔ ∀ p ∈ m, ¬ range_contributing qp p := by
  constructor
  · intro h
    unfold optimize_minterm at h
    rcases hacc : accumulate_ranges qp m [] with e | o
    · rw [hacc] at h
      cases h
    · rw [hacc] at h
      cases o with
      | none => cases h
      | some ranges =>
        cases ranges with
        | nil => exact (accumulate_ranges_empty qp m [] hacc).2
        | cons hd tl => simp at h
  · exact optimize_minterm_no_index qp m

/-- C12. For a minterm whose predicates all carry one of the six defined operators,
`optimize_minterm` returns `no_valid_index_op` if and only if no predicate of the minterm
is on an indexed column with an operator other than `NEQ`; so a plan holding the full scan
is returned only for an expression with such a minterm. -/
theorem no_index_available_iff (qp : query_planner V B K) (m : compiled_minterm V)
    (hdef : ∀ p ∈ m, p.op.is_defined = true) :
    (optimize_minterm qp m = .ok .no_valid_index_op ↔
        ∀ p ∈ m, ¬ ((qp.schema_ p.field_idx).is_indexed = true ∧ p.op ≠ .NEQ)) ∧
      (optimize_minterm qp m = .ok .no_valid_index_op ∨ optimize_minterm qp m = .ok .no_op ∨
        ∃ i r, optimize_minterm qp m = .ok (.index_op i r)) ∧
      ∀ (expr : compiled_expression V) (pl : List (query_op K)), plan qp expr = .ok pl →
        query_op.full_scan_op ∈ pl →
        ∃ m1 ∈ expr, ∀ p ∈ m1, ¬ ((qp.schema_ p.field_idx).is_indexed = true ∧ p.op ≠ .NEQ) := by
  refine ⟨optimize_minterm_no_index_iff qp m, ?_, ?_⟩
  · rcases optimize_minterm_defined qp m hdef with h | h | h
    · exact Or.inr (Or.inl h)
    · exact Or.inl h
    · exact Or.inr (Or.inr h)
  · intro expr pl hplan hfs
    rcases plan_loop_full_scan_origin qp expr [] pl hplan hfs with h | ⟨m1, hm1, h⟩
    · exact absurd h (List.not_mem_nil _)
    · exact ⟨m1, hm1, (optimize_minterm_no_index_iff qp m1).1 h⟩

/-- Instance of C12: `name == 7 AND age != 3` has no range-contributing predicate (`name`
is not indexed, the predicate on `age` is a `NEQ`), and the optimizer finds no index. -/
theorem no_index_available_iff_witness :
    (∀ p ∈ [(⟨2, .EQ, 7⟩ : compiled_predicate Int), ⟨1, .NEQ, 3⟩], p.op.is_defined = true) ∧
      (∀ p ∈ [(⟨2, .EQ, 7⟩ : compiled_predicate Int), ⟨1, .NEQ, 3⟩],
        ¬ (((age_planner 1).schema_ p.field_idx).is_indexed = true ∧ p.op ≠ .NEQ)) ∧
      optimize_minterm (age_planner 1) [⟨2, .EQ, 7⟩, ⟨1, .NEQ, 3⟩] = .ok .no_valid_index_op :=
  ⟨by decide, by decide,
    (no_index_available_iff (age_planner 1) [⟨2, .EQ, 7⟩, ⟨1, .NEQ, 3⟩] (by decide)).1.2
      (by decide)⟩

theorem plan_loop_error_kind (qp : query_planner V B K) (expr : compiled_expression V)
    (acc : List (query_op K)) (e : planner_exception) (h : plan_loop qp expr acc = .error e) :
    e = .invalid_operation_exception := by
  induction expr generalizing acc with
  | nil => cases h
  | cons m ms ih =>
    rcases optimize_minterm_cases qp m with ⟨e1, hm⟩ | hm | hm | ⟨i, r, hm⟩
    · rw [plan_loop_error qp m ms acc e1 hm] at h
      cases h
      exact optimize_minterm_error_kind qp m e hm
    · rw [plan_loop_no_op qp m ms acc hm] at h
      exact ih acc h
    · rw [plan_loop_no_valid_index_op qp m ms acc hm] at h
      cases h
    · rw [plan_loop_index_op qp m ms acc i r hm] at h
      exact ih _ h

/-- C13. Exhaustive outcome: a result that `optimize_minterm` returns (no exception) is
`no_op`, `no_valid_index_op` or an `index_op`, so its tag is one of `D_NO_OP`,
`D_NO_VALID_INDEX_OP`, `D_INDEX_OP`; the `default` branch of `plan` is never taken, and
`plan` never fails with `illegal_state_exception`. -/
theorem optimizer_outcome_exhaustive (qp : query_planner V B K) (m : compiled_minterm V)
    (expr : compiled_expression V) :
    (∀ op, optimize_minterm qp m = .ok op →
        (op = .no_op ∨ op = .no_valid_index_op ∨ ∃ i r, op = .index_op i r) ∧
        (op.op_type = .D_NO_OP ∨ op.op_type = .D_NO_VALID_INDEX_OP ∨
          op.op_type = .D_INDEX_OP)) ∧
      plan qp expr ≠ .error .illegal_state_exception := by
  constructor
  · intro op hop
    rcases optimize_minterm_cases qp m with ⟨e, h⟩ | h | h | ⟨i, r, h⟩
    · rw [h] at hop; cases hop
    · rw [h] at hop; cases hop
      exact ⟨Or.inl rfl, Or.inl rfl⟩
    · rw [h] at hop; cases hop
      exact ⟨Or.inr (Or.inl rfl), Or.inr (Or.inl rfl)⟩
    · rw [h] at hop; cases hop
      exact ⟨Or.inr (Or.inr ⟨i, r, rfl⟩), Or.inr (Or.inr rfl)⟩
  · intro h
    have hk := plan_loop_error_kind qp expr [] _ h
    cases hk

/-- Instance of C13: the result for `age >= 30 AND age <= 40` is an `index_op`. -/
theorem optimizer_outcome_exhaustive_witness :
    optimize_minterm (age_planner 1) [⟨1, .GE, 30⟩, ⟨1, .LE, 40⟩]
        = .ok (.index_op 0 (30, 40)) ∧
      ((query_op.index_op 0 ((30 : Int), (40 : Int))).op_type = .D_NO_OP ∨
        (query_op.index_op 0 ((30 : Int), (40 : Int))).op_type = .D_NO_VALID_INDEX_OP ∨
        (query_op.index_op 0 ((30 : Int), (40 : Int))).op_type = .D_INDEX_OP) :=
  ⟨by decide,
    ((optimizer_outcome_exhaustive (age_planner 1) [⟨1, .GE, 30⟩, ⟨1, .LE, 40⟩] []).1 _
      (by decide)).2⟩

end outcomes

/-! ## Intersection of key ranges; the short circuit -/

section algebra

variable {V B K : Type} [LinearOrder K]

/-- C14. Key-range intersection: `merge_range r1 r2` is
`[max r1.low r2.low, min r1.high r2.high]`; a key lies in it if and only if it lies in `r1`
and in `r2`; it is valid exactly when `r1` and `r2` share a key; and `merge_range` is
commutative, associative and idempotent. -/
theorem merge_range_intersection (r1 r2 r3 : key_range K) (k : K) :
    merge_range r1 r2 = (max r1.1 r2.1, min r1.2 r2.2) ∧
      (key_range_mem k (merge_range r1 r2) ↔ key_range_mem k r1 ∧ key_range_mem k r2) ∧
      (key_range_valid (merge_range r1 r2) ↔
        ∃ k1, key_range_mem k1 r1 ∧ key_range_mem k1 r2) ∧
      merge_range r1 r2 = merge_range r2 r1 ∧
      merge_range (merge_range r1 r2) r3 = merge_range r1 (merge_range r2 r3) ∧
      merge_range r1 r1 = r1 := by
  refine ⟨rfl, ?_, ?_, ?_, ?_, ?_⟩
  · unfold key_range_mem merge_range
    simp only [max_le_iff, le_min_iff]
    tauto
  · unfold key_range_valid key_range_mem merge_range
    constructor
    · intro h
      have h1 : max r1.1 r2.1 ≤ min r1.2 r2.2 := h
      refine ⟨max r1.1 r2.1, ⟨le_max_left _ _, le_trans h1 (min_le_left _ _)⟩,
        ⟨le_max_right _ _, le_trans h1 (min_le_right _ _)⟩⟩
    · rintro ⟨k1, ⟨h1, h2⟩, ⟨h3, h4⟩⟩
      exact le_trans (max_le h1 h3) (le_min h2 h4)
  · unfold merge_range
    rw [max_comm, min_comm]
  · unfold merge_range
    simp only [max_assoc, min_assoc]
  · unfold merge_range
    simp only [max_self, min_self]

/-- The first loop does not read the oracle or the content of `min_id`. -/
theorem accumulate_ranges_oracle_free (qp : query_planner V B K) (c : Nat → K → K → Nat)
    (u : Nat) (m : compiled_minterm V) (ranges : key_range_map K) :
    accumulate_ranges { qp with approx_count := c, min_id_uninit := u } m ranges
      = accumulate_ranges qp m ranges := by
  induction m generalizing ranges with
  | nil => rfl
  | cons p ps ih =>
    simp only [accumulate_ranges, translate_predicate, ih]

/-- C15. Short circuit: when the predicates `pre` leave an accumulated range invalid (the
first loop returns early on them), `optimize_minterm` returns `no_op` on `pre ++ rest` for
every `rest`, malformed predicates in `rest` included, and for every oracle and every
content of `min_id`: nothing after `pre` is translated and no estimate is asked for. -/
theorem short_circuit_on_invalid_range (qp : query_planner V B K)
    (pre rest : compiled_minterm V) (h : accumulate_ranges qp pre [] = .ok none) :
    optimize_minterm qp (pre ++ rest) = .ok .no_op ∧
      ∀ (c : Nat → K → K → Nat) (u : Nat),
        optimize_minterm { qp with approx_count := c, min_id_uninit := u } (pre ++ rest)
          = .ok .no_op := by
  have hacc : accumulate_ranges qp (pre ++ rest) [] = .ok none := by
    rw [accumulate_ranges_append, h]
  refine ⟨optimize_minterm_of_none qp _ hacc, fun c u => ?_⟩
  apply optimize_minterm_of_none
  rw [accumulate_ranges_oracle_free qp c u]
  exact hacc

/-- Instance of C15: after `age > 10 AND age < 5` the range of `age` is invalid, and a
malformed predicate on `age` that follows does not make the call fail. -/
theorem short_circuit_on_invalid_range_witness :
    accumulate_ranges (age_planner 1) [⟨1, .GT, 10⟩, ⟨1, .LT, 5⟩] [] = .ok none ∧
      optimize_minterm (age_planner 1) ([⟨1, .GT, 10⟩, ⟨1, .LT, 5⟩] ++ [⟨1, .INVALID 9, 0⟩])
        = .ok .no_op :=
  ⟨by decide,
    (short_circuit_on_invalid_range (age_planner 1) [⟨1, .GT, 10⟩, ⟨1, .LT, 5⟩]
      [⟨1, .INVALID 9, 0⟩] (by decide)).1⟩

end algebra

/-! ## The map after the first loop: one intersection per index -/

section accumulation

variable {V B K : Type} [LinearOrder K]

omit [LinearOrder K] in
theorem find_assign (ranges : key_range_map K) (id id1 : Nat) (r : key_range K) :
    key_range_map.find (key_range_map.assign ranges id r) id1
      = if id = id1 then some r else key_range_map.find ranges id1 := by
  induction ranges with
  | nil => simp [key_range_map.assign, key_range_map.find]
  | cons hd rest ih =>
    obtain ⟨k, r0⟩ := hd
    simp only [key_range_map.assign]
    by_cases h1 : id < k
    · simp only [if_pos h1, key_range_map.find]
    · simp only [if_neg h1]
      by_cases h2 : id = k
      · subst h2
        simp only [if_true, key_range_map.find]
        by_cases h3 : id = id1 <;> simp [h3]
      · simp only [if_neg h2, key_range_map.find, ih]
        by_cases h3 : k = id1
        · have h4 : ¬ id = id1 := fun h => h2 (h.trans h3.symm)
          simp [h3, h4]
        · simp [h3]

theorem add_range_eq (ranges : key_range_map K) (id : Nat) (r : key_range K) :
    ∃ r_m, intersect_step (key_range_map.find ranges id) r = some r_m ∧
      add_range ranges id r
        = if r_m.1 ≤ r_m.2 then (true, key_range_map.assign ranges id r_m)
          else (false, ranges) := by
  unfold add_range
  cases hfind : key_range_map.find ranges id with
  | none => exact ⟨r, rfl, rfl⟩
  | some r0 => exact ⟨merge_range r0 r, rfl, rfl⟩

/-- What `add_range` does, in terms of lookups: it fails when the intersection of the
stored range of `id` with `r` is invalid, and otherwise stores that intersection under
`id` and leaves the other keys as they were. -/
theorem add_range_find (ranges : key_range_map K) (id : Nat) (r : key_range K) :
    ∃ r_m, intersect_step (key_range_map.find ranges id) r = some r_m ∧
      ((add_range ranges id r).1 = true ↔ key_range_valid r_m) ∧
      ((add_range ranges id r).1 = true → ∀ id1,
        key_range_map.find (add_range ranges id r).2 id1
          = if id = id1 then some r_m else key_range_map.find ranges id1) ∧
      ((add_range ranges id r).1 = true →
        (add_range ranges id r).2 = key_range_map.assign ranges id r_m) ∧
      ((add_range ranges id r).1 = false → (add_range ranges id r).2 = ranges) := by
  obtain ⟨r_m, hstep, heq⟩ := add_range_eq ranges id r
  refine ⟨r_m, hstep, ?_⟩
  rw [heq]
  by_cases hv : r_m.1 ≤ r_m.2
  · rw [if_pos hv]
    refine ⟨⟨fun _ => hv, fun _ => rfl⟩, fun _ id1 => find_assign ranges id id1 r_m,
      fun _ => rfl, ?_⟩
    intro h
    cases h
  · rw [if_neg hv]
    refine ⟨⟨?_, fun h => absurd h hv⟩, ?_, ?_, fun _ => rfl⟩
    · intro h
      cases h
    · intro h
      cases h
    · intro h
      cases h

theorem merge_range_invalid (a r : key_range K) (h : ¬ key_range_valid a) :
    ¬ key_range_valid (merge_range a r) :=
  fun hv => h (merge_range_valid_left a r hv)

theorem foldl_intersect_invalid (l : List (key_range K)) (a : key_range K)
    (h : ¬ key_range_valid a) :
    ∃ r, l.foldl intersect_step (some a) = some r ∧ ¬ key_range_valid r := by
  induction l generalizing a with
  | nil => exact ⟨a, rfl, h⟩
  | cons b rest ih => exact ih (merge_range a b) (merge_range_invalid a b h)

omit [LinearOrder K] in
theorem ranges_of_index_cons_skip (qp : query_planner V B K) (p : compiled_predicate V)
    (ps : compiled_minterm V) (id : Nat)
    (h : ¬ (range_contributing qp p ∧ (qp.schema_ p.field_idx).index_id = id)) :
    ranges_of_index qp (p :: ps) id = ranges_of_index qp ps id := by
  simp only [ranges_of_index, List.filterMap_cons, if_neg h]

omit [LinearOrder K] in
theorem ranges_of_index_cons_keep (qp : query_planner V B K) (p : compiled_predicate V)
    (ps : compiled_minterm V) (id : Nat) (r : key_range K)
    (h : range_contributing qp p ∧ (qp.schema_ p.field_idx).index_id = id)
    (htr : translate_predicate qp (qp.schema_ p.field_idx) p = .ok r) :
    ranges_of_index qp (p :: ps) id = r :: ranges_of_index qp ps id := by
  simp only [ranges_of_index, List.filterMap_cons, if_pos h, htr]

end accumulation

section accumulation_loop

variable {V B K : Type} [LinearOrder K]

/-- One round of the first loop on a range-contributing predicate, seen from the lookups:
the intersection for every index identifier over the remaining predicates, started from
the new map, is the intersection over the predicate and the remaining ones, started from
the old map. -/
theorem foldl_after_add_range (qp : query_planner V B K) (p : compiled_predicate V)
    (ps : compiled_minterm V) (ranges : key_range_map K) (r : key_range K)
    (hg : range_contributing qp p)
    (htr : translate_predicate qp (qp.schema_ p.field_idx) p = .ok r)
    (hadd : (add_range ranges (qp.schema_ p.field_idx).index_id r).1 = true) (id : Nat) :
    (ranges_of_index qp ps id).foldl intersect_step
        (key_range_map.find (add_range ranges (qp.schema_ p.field_idx).index_id r).2 id)
      = (ranges_of_index qp (p :: ps) id).foldl intersect_step
        (key_range_map.find ranges id) := by
  obtain ⟨r_m, hstep, _, hfind, _, _⟩ :=
    add_range_find ranges (qp.schema_ p.field_idx).index_id r
  rw [hfind hadd id]
  by_cases hid : (qp.schema_ p.field_idx).index_id = id
  · rw [if_pos hid, ranges_of_index_cons_keep qp p ps id r ⟨hg, hid⟩ htr, List.foldl_cons,
      ← hid, hstep]
  · rw [if_neg hid, ranges_of_index_cons_skip qp p ps id fun h => hid h.2]

/-- When the first loop falls through, the map it ends with holds, for every index
identifier, the intersection of the range it started with and the translated ranges of
the predicates on that index. -/
theorem accumulate_ranges_find (qp : query_planner V B K) (m : compiled_minterm V)
    (ranges out : key_range_map K) (hacc : accumulate_ranges qp m ranges = .ok (some out))
    (id : Nat) :
    key_range_map.find out id
      = (ranges_of_index qp m id).foldl intersect_step (key_range_map.find ranges id) := by
  induction m generalizing ranges with
  | nil =>
    simp only [accumulate_ranges, Except.ok.injEq, Option.some.injEq] at hacc
    rw [hacc]
    rfl
  | cons p ps ih =>
    by_cases hg : range_contributing qp p
    · rcases htr : translate_predicate qp (qp.schema_ p.field_idx) p with e | r
      · rw [accumulate_ranges_cons_error qp p ps ranges hg e htr] at hacc
        cases hacc
      · cases hadd : (add_range ranges (qp.schema_ p.field_idx).index_id r).1
        · rw [accumulate_ranges_cons_invalid qp p ps ranges hg r htr hadd] at hacc
          cases hacc
        · rw [accumulate_ranges_cons_valid qp p ps ranges hg r htr hadd] at hacc
          rw [ih _ hacc]
          exact foldl_after_add_range qp p ps ranges r hg htr hadd id
    · rw [accumulate_ranges_cons_skip qp p ps ranges hg] at hacc
      rw [ih ranges hacc, ranges_of_index_cons_skip qp p ps id fun h => hg h.1]

/-- When the first loop returns early, the intersection for some index identifier is
invalid. -/
theorem accumulate_ranges_none (qp : query_planner V B K) (m : compiled_minterm V)
    (ranges : key_range_map K) (hacc : accumulate_ranges qp m ranges = .ok none) :
    ∃ id r, (ranges_of_index qp m id).foldl intersect_step (key_range_map.find ranges id)
      = some r ∧ ¬ key_range_valid r := by
  induction m generalizing ranges with
  | nil => cases hacc
  | cons p ps ih =>
    by_cases hg : range_contributing qp p
    · rcases htr : translate_predicate qp (qp.schema_ p.field_idx) p with e | r
      · rw [accumulate_ranges_cons_error qp p ps ranges hg e htr] at hacc
        cases hacc
      · cases hadd : (add_range ranges (qp.schema_ p.field_idx).index_id r).1
        · obtain ⟨r_m, hstep, hiff, _, _, _⟩ :=
            add_range_find ranges (qp.schema_ p.field_idx).index_id r
          have hinv : ¬ key_range_valid r_m := fun hv => by
            rw [hiff.2 hv] at hadd
            cases hadd
          obtain ⟨r1, h1, h2⟩ := foldl_intersect_invalid
            (ranges_of_index qp ps (qp.schema_ p.field_idx).index_id) r_m hinv
          refine ⟨(qp.schema_ p.field_idx).index_id, r1, ?_, h2⟩
          rw [ranges_of_index_cons_keep qp p ps _ r ⟨hg, rfl⟩ htr, List.foldl_cons, hstep, h1]
        · rw [accumulate_ranges_cons_valid qp p ps ranges hg r htr hadd] at hacc
          obtain ⟨id, r1, h1, h2⟩ := ih _ hacc
          exact ⟨id, r1, by rw [← foldl_after_add_range qp p ps ranges r hg htr hadd id, h1],
            h2⟩
    · rw [accumulate_ranges_cons_skip qp p ps ranges hg] at hacc
      obtain ⟨id, r1, h1, h2⟩ := ih ranges hacc
      exact ⟨id, r1, by rw [ranges_of_index_cons_skip qp p ps id fun h => hg h.1, h1], h2⟩

theorem add_range_all_valid (ranges : key_range_map K) (id : Nat) (r : key_range K)
    (hv : all_valid ranges) : all_valid (add_range ranges id r).2 := by
  obtain ⟨r_m, _, hiff, _, hassign, hsame⟩ := add_range_find ranges id r
  cases hadd : (add_range ranges id r).1
  · rw [hsame hadd]
    exact hv
  · rw [hassign hadd]
    intro e he
    rcases mem_assign ranges id r_m e he with h | h
    · rw [h]
      exact hiff.1 hadd
    · exact hv e h

/-- Every range in the map with which the first loop falls through is valid, and every
key of that map was in the map at the start or is the index identifier of the column of a
range-contributing predicate of the minterm. -/
theorem accumulate_ranges_entries (qp : query_planner V B K) (m : compiled_minterm V)
    (ranges out : key_range_map K) (hv : all_valid ranges)
    (hacc : accumulate_ranges qp m ranges = .ok (some out)) :
    all_valid out ∧ ∀ e ∈ out, (∃ e0 ∈ ranges, e0.1 = e.1) ∨
      ∃ p ∈ m, range_contributing qp p ∧ (qp.schema_ p.field_idx).index_id = e.1 := by
  induction m generalizing ranges with
  | nil =>
    simp only [accumulate_ranges, Except.ok.injEq, Option.some.injEq] at hacc
    rw [← hacc]
    exact ⟨hv, fun e he => Or.inl ⟨e, he, rfl⟩⟩
  | cons p ps ih =>
    by_cases hg : range_contributing qp p
    · rcases htr : translate_predicate qp (qp.schema_ p.field_idx) p with e | r
      · rw [accumulate_ranges_cons_error qp p ps ranges hg e htr] at hacc
        cases hacc
      · cases hadd : (add_range ranges (qp.schema_ p.field_idx).index_id r).1
        · rw [accumulate_ranges_cons_invalid qp p ps ranges hg r htr hadd] at hacc
          cases hacc
        · rw [accumulate_ranges_cons_valid qp p ps ranges hg r htr hadd] at hacc
          obtain ⟨h1, h2⟩ := ih _ (add_range_all_valid ranges _ r hv) hacc
          refine ⟨h1, fun e he => ?_⟩
          rcases h2 e he with ⟨e0, he0, hk⟩ | ⟨q, hq, hq1, hq2⟩
          · obtain ⟨r_m, _, _, _, hassign, _⟩ :=
              add_range_find ranges (qp.schema_ p.field_idx).index_id r
            rw [hassign hadd] at he0
            rcases mem_assign ranges _ r_m e0 he0 with h3 | h3
            · refine Or.inr ⟨p, List.mem_cons_self _ _, hg, ?_⟩
              rw [← hk, h3]
            · exact Or.inl ⟨e0, h3, hk⟩
          · exact Or.inr ⟨q, List.mem_cons_of_mem _ hq, hq1, hq2⟩
    · rw [accumulate_ranges_cons_skip qp p ps ranges hg] at hacc
      obtain ⟨h1, h2⟩ := ih ranges hv hacc
      refine ⟨h1, fun e he => ?_⟩
      rcases h2 e he with h3 | ⟨q, hq, hq1, hq2⟩
      · exact Or.inl h3
      · exact Or.inr ⟨q, List.mem_cons_of_mem _ hq, hq1, hq2⟩

omit [LinearOrder K] in
theorem find_of_mem_sorted (ranges : key_range_map K) (hs : sorted_keys ranges) (i : Nat)
    (r : key_range K) (h : (i, r) ∈ ranges) : key_range_map.find ranges i = some r := by
  induction ranges with
  | nil => cases h
  | cons hd rest ih =>
    obtain ⟨k, r0⟩ := hd
    have hs1 := List.pairwise_cons.1 hs
    rcases List.mem_cons.1 h with h1 | h1
    · cases h1
      simp [key_range_map.find]
    · have hk : k ≠ i := ne_of_lt (hs1.1 (i, r) h1)
      simp only [key_range_map.find, if_neg hk]
      exact ih hs1.2 h1

end accumulation_loop

section n_ary

variable {V B K : Type} [LinearOrder K]

/-- An `index_op` returned by the optimizer comes from a non-empty map with which the first
loop fell through, and carries the range read from that map at the returned identifier. -/
theorem optimize_minterm_index_op_inv (qp : query_planner V B K) (m : compiled_minterm V)
    (i : Nat) (r : key_range K) (h : optimize_minterm qp m = .ok (.index_op i r)) :
    ∃ out, accumulate_ranges qp m [] = .ok (some out) ∧ out ≠ [] ∧
      r = key_range_map.index out i qp.keys.empty := by
  unfold optimize_minterm at h
  rcases hacc : accumulate_ranges qp m [] with e | o
  · rw [hacc] at h
    cases h
  · rw [hacc] at h
    cases o with
    | none => cases h
    | some out =>
      cases out with
      | nil => simp at h
      | cons hd tl =>
        simp only [List.isEmpty_cons, Bool.false_eq_true, if_false, Except.ok.injEq,
          query_op.index_op.injEq] at h
        refine ⟨hd :: tl, rfl, List.cons_ne_nil _ _, ?_⟩
        rw [← h.2, h.1]

theorem optimize_minterm_no_op_iff (qp : query_planner V B K) (m : compiled_minterm V) :
    optimize_minterm qp m = .ok .no_op ↔ accumulate_ranges qp m [] = .ok none := by
  constructor
  · intro h
    unfold optimize_minterm at h
    rcases hacc : accumulate_ranges qp m [] with e | o
    · rw [hacc] at h
      cases h
    · rw [hacc] at h
      cases o with
      | none => rfl
      | some out =>
        by_cases hemp : out.isEmpty = true <;> simp [hemp] at h
  · exact optimize_minterm_of_none qp m

/-- Accumulation over any number of predicates: for a minterm whose predicates all carry one of the six
defined operators, `optimize_minterm` returns `no_op` if and only if for some index
identifier the intersection of the translated ranges of all range-contributing predicates
on that index is invalid; and an `index_op` it returns on the index `i` carries exactly the
intersection of the translated ranges of all range-contributing predicates on `i` (the
default range, if the minterm has no such predicate; with estimates below `UINT64_MAX` it
always has one). -/
theorem n_ary_accumulation (qp : query_planner V B K) (m : compiled_minterm V)
    (hdef : ∀ p ∈ m, p.op.is_defined = true) :
    (optimize_minterm qp m = .ok .no_op ↔
        ∃ id r, intersect_all (ranges_of_index qp m id) = some r ∧ ¬ key_range_valid r) ∧
      (∀ i r, optimize_minterm qp m = .ok (.index_op i r) →
        intersect_all (ranges_of_index qp m i) = some r ∨
          (intersect_all (ranges_of_index qp m i) = none ∧
            r = (qp.keys.empty, qp.keys.empty))) ∧
      ((∀ id lo hi, qp.approx_count id lo hi < UINT64_MAX) →
        ∀ i r, optimize_minterm qp m = .ok (.index_op i r) →
          intersect_all (ranges_of_index qp m i) = some r) := by
  have hfold : ∀ out, accumulate_ranges qp m [] = .ok (some out) → ∀ id,
      key_range_map.find out id = intersect_all (ranges_of_index qp m id) :=
    fun out hacc id => accumulate_ranges_find qp m [] out hacc id
  refine ⟨⟨?_, ?_⟩, ?_, ?_⟩
  · intro h
    exact accumulate_ranges_none qp m [] ((optimize_minterm_no_op_iff qp m).1 h)
  · rintro ⟨id, r, hr, hinv⟩
    obtain ⟨o, ho⟩ := accumulate_ranges_defined qp m hdef []
    cases o with
    | none => exact optimize_minterm_of_none qp m ho
    | some out =>
      have hv := (accumulate_ranges_entries qp m [] out
        (fun e he => absurd he (List.not_mem_nil e)) ho).1
      have hmem := find_mem out id r (by rw [hfold out ho id, hr])
      exact absurd (hv (id, r) hmem) hinv
  · intro i r h
    obtain ⟨out, hacc, _, hr⟩ := optimize_minterm_index_op_inv qp m i r h
    rw [← hfold out hacc i]
    unfold key_range_map.index at hr
    cases hfind : key_range_map.find out i with
    | none =>
      rw [hfind] at hr
      exact Or.inr ⟨rfl, hr⟩
    | some r0 =>
      rw [hfind] at hr
      exact Or.inl (by rw [hr])
  · intro hcost i r h
    obtain ⟨out, hacc, hne, _⟩ := optimize_minterm_index_op_inv qp m i r h
    obtain ⟨e0, he0⟩ := List.exists_mem_of_ne_nil out hne
    obtain ⟨i1, r1, hsel, hmem, _, _⟩ := optimize_minterm_select qp m out hacc
      ⟨e0, he0, hcost _ _ _⟩
    rw [h] at hsel
    cases hsel
    rw [← hfold out hacc i]
    exact find_of_mem_sorted out
      (accumulate_ranges_sorted qp m [] out List.Pairwise.nil hacc) i r hmem

/-- Instance of the accumulation: field 2 carries the index 3 and field 1 the index 5. For
`f2 >= 30 AND f2 <= 40 AND f1 == 7 AND f2 >= 35` the three ranges on the index 3 are
`[30, 100]`, `[0, 40]`, `[35, 100]`, their intersection is `[35, 40]`, and that is the
range returned with the index 3. -/
theorem n_ary_accumulation_witness :
    (∀ p ∈ [(⟨2, .GE, 30⟩ : compiled_predicate Int), ⟨2, .LE, 40⟩, ⟨1, .EQ, 7⟩, ⟨2, .GE, 35⟩],
        p.op.is_defined = true) ∧
      ranges_of_index tie_planner [⟨2, .GE, 30⟩, ⟨2, .LE, 40⟩, ⟨1, .EQ, 7⟩, ⟨2, .GE, 35⟩] 3
        = [(30, 100), (0, 40), (35, 100)] ∧
      optimize_minterm tie_planner [⟨2, .GE, 30⟩, ⟨2, .LE, 40⟩, ⟨1, .EQ, 7⟩, ⟨2, .GE, 35⟩]
        = .ok (.index_op 3 (35, 40)) ∧
      intersect_all
          (ranges_of_index tie_planner [⟨2, .GE, 30⟩, ⟨2, .LE, 40⟩, ⟨1, .EQ, 7⟩, ⟨2, .GE, 35⟩] 3)
        = some (35, 40) :=
  ⟨by decide, by decide, by decide,
    (n_ary_accumulation tie_planner [⟨2, .GE, 30⟩, ⟨2, .LE, 40⟩, ⟨1, .EQ, 7⟩, ⟨2, .GE, 35⟩]
      (by decide)).2.2 (fun _ _ _ => (by decide : (10 : Nat) < UINT64_MAX)) 3 (35, 40)
      (by decide)⟩

end n_ary

section order_independence

variable {V B K : Type} [LinearOrder K]

end order_independence

section well_formed

variable {V B K : Type} [LinearOrder K]

/-- The range of an `index_op` returned by the optimizer is valid. -/
theorem optimize_minterm_range_valid (qp : query_planner V B K) (m : compiled_minterm V)
    (i : Nat) (r : key_range K) (h : optimize_minterm qp m = .ok (.index_op i r)) :
    key_range_valid r := by
  obtain ⟨out, hacc, _, hr⟩ := optimize_minterm_index_op_inv qp m i r h
  have hv := (accumulate_ranges_entries qp m [] out
    (fun e he => absurd he (List.not_mem_nil e)) hacc).1
  unfold key_range_map.index at hr
  cases hfind : key_range_map.find out i with
  | none =>
    rw [hfind] at hr
    rw [hr]
    exact le_refl qp.keys.empty
  | some r0 =>
    rw [hfind] at hr
    rw [hr]
    exact hv (i, r0) (find_mem out i r0 hfind)

/-- With estimates below `UINT64_MAX`, the index of an `index_op` returned by the
optimizer is the index of the column of a range-contributing predicate of the minterm. -/
theorem optimize_minterm_index_origin (qp : query_planner V B K) (m : compiled_minterm V)
    (hcost : ∀ id lo hi, qp.approx_count id lo hi < UINT64_MAX)
    (i : Nat) (r : key_range K) (h : optimize_minterm qp m = .ok (.index_op i r)) :
    ∃ p ∈ m, range_contributing qp p ∧ (qp.schema_ p.field_idx).index_id = i := by
  obtain ⟨out, hacc, hne, _⟩ := optimize_minterm_index_op_inv qp m i r h
  obtain ⟨e0, he0⟩ := List.exists_mem_of_ne_nil out hne
  obtain ⟨i1, r1, hsel, hmem, _, _⟩ := optimize_minterm_select qp m out hacc
    ⟨e0, he0, hcost _ _ _⟩
  rw [h] at hsel
  cases hsel
  rcases (accumulate_ranges_entries qp m [] out
    (fun e he => absurd he (List.not_mem_nil e)) hacc).2 (i, r) hmem with
    ⟨e1, he1, _⟩ | hp
  · exact absurd he1 (List.not_mem_nil e1)
  · exact hp

/-- What holds of every `index_op` of a returned plan: its range satisfies
`low <= high`, and (with estimates below `UINT64_MAX`) it is the result of the optimizer on
a minterm of the expression that has a predicate with an operator other than `NEQ` on an
indexed column with that index identifier. Behind it, `add_range` keeps every range stored
in the map valid, and leaves the map unchanged when it returns `false`. -/
theorem index_range_well_formed (qp : query_planner V B K) (expr : compiled_expression V)
    (pl : List (query_op K)) (h : plan qp expr = .ok pl) (i : Nat) (r : key_range K)
    (hmem : query_op.index_op i r ∈ pl) :
    key_range_valid r ∧
      ((∀ id lo hi, qp.approx_count id lo hi < UINT64_MAX) →
        ∃ m ∈ expr, optimize_minterm qp m = .ok (.index_op i r) ∧
          ∃ p ∈ m, (qp.schema_ p.field_idx).is_indexed = true ∧ p.op ≠ .NEQ ∧
            (qp.schema_ p.field_idx).index_id = i) ∧
      ∀ (ranges : key_range_map K) (id : Nat) (r0 : key_range K),
        (all_valid ranges → all_valid (add_range ranges id r0).2) ∧
        ((add_range ranges id r0).1 = false → (add_range ranges id r0).2 = ranges) := by
  have horigin : ∃ m ∈ expr, optimize_minterm qp m = .ok (.index_op i r) := by
    rcases plan_loop_members qp expr [] pl h with h1 | h1
    · rw [h1] at hmem
      cases List.mem_singleton.1 hmem
    · rcases h1 _ hmem with h2 | ⟨m, hm, i1, r1, h2, h3⟩
      · exact absurd h2 (List.not_mem_nil _)
      · cases h2
        exact ⟨m, hm, h3⟩
  obtain ⟨m, hm, hres⟩ := horigin
  refine ⟨optimize_minterm_range_valid qp m i r hres, ?_, ?_⟩
  · intro hcost
    obtain ⟨p, hp, hg, hid⟩ := optimize_minterm_index_origin qp m hcost i r hres
    exact ⟨m, hm, hres, p, hp, hg.1, hg.2, hid⟩
  · intro ranges id r0
    obtain ⟨_, _, _, _, _, hsame⟩ := add_range_find ranges id r0
    exact ⟨add_range_all_valid ranges id r0, hsame⟩

/-- Instance on a returned plan: the plan of `(f2 >= 30 AND f1 == 7 AND f2 <= 40) OR (f1 > 4)` holds
the index range `[30, 40]` on the index 3, which is valid and is the index of field 2. -/
theorem index_range_well_formed_witness :
    plan tie_planner [[⟨2, .GE, 30⟩, ⟨1, .EQ, 7⟩, ⟨2, .LE, 40⟩], [⟨1, .GT, 4⟩]]
        = .ok [.index_op 3 (30, 40), .index_op 5 (5, 100)] ∧
      key_range_valid ((30 : Int), (40 : Int)) ∧
      ∃ m ∈ [[(⟨2, .GE, 30⟩ : compiled_predicate Int), ⟨1, .EQ, 7⟩, ⟨2, .LE, 40⟩],
          [⟨1, .GT, 4⟩]],
        optimize_minterm tie_planner m = .ok (.index_op 3 (30, 40)) ∧
          ∃ p ∈ m, (tie_planner.schema_ p.field_idx).is_indexed = true ∧ p.op ≠ .NEQ ∧
            (tie_planner.schema_ p.field_idx).index_id = 3 :=
  ⟨by decide,
    (index_range_well_formed tie_planner
      [[⟨2, .GE, 30⟩, ⟨1, .EQ, 7⟩, ⟨2, .LE, 40⟩], [⟨1, .GT, 4⟩]]
      [.index_op 3 (30, 40), .index_op 5 (5, 100)] (by decide) 3 (30, 40) (by decide)).1,
    (index_range_well_formed tie_planner
      [[⟨2, .GE, 30⟩, ⟨1, .EQ, 7⟩, ⟨2, .LE, 40⟩], [⟨1, .GT, 4⟩]]
      [.index_op 3 (30, 40), .index_op 5 (5, 100)] (by decide) 3 (30, 40) (by decide)).2.1
      (fun _ _ _ => (by decide : (10 : Nat) < UINT64_MAX))⟩

end well_formed

/-! ## Layout of the schema -/

namespace schema

theorem sizes_sum_append {M : Type} (l1 l2 : List (column_t M)) :
    sizes_sum (l1 ++ l2) = sizes_sum l1 + sizes_sum l2 := by
  simp [sizes_sum, List.map_append, List.sum_append]

theorem sizes_sum_take_le {M : Type} (l : List (column_t M)) (i : Nat) :
    sizes_sum (l.take i) ≤ sizes_sum l := by
  have h := sizes_sum_append (l.take i) (l.drop i)
  rw [List.take_append_drop] at h
  omega

theorem init_layout {M : Type} (env : schema_env M) :
    layout_invariant env (schema_builder.init env) := by
  refine ⟨?_, ?_, rfl⟩
  · simp [schema_builder.init, sizes_sum]
  · intro i c h
    cases i with
    | zero =>
      simp only [schema_builder.init, List.getElem?_cons_zero, Option.some.injEq] at h
      rw [← h]
      simp [sizes_sum]
    | succ n => simp [schema_builder.init] at h

theorem add_column_timestamp {M : Type} (env : schema_env M) (b b1 : schema_builder M)
    (a : add_column_args M) (hts : env.to_upper a.name = "TIMESTAMP")
    (h : schema_builder.add_column env b a = .ok b1) :
    b1.columns_ = b.columns_ ∧ b1.offset_ = b.offset_ := by
  unfold schema_builder.add_column at h
  rw [if_pos hts] at h
  split_ifs at h
  cases h
  exact ⟨rfl, rfl⟩

theorem add_column_plain {M : Type} (env : schema_env M) (b : schema_builder M)
    (a : add_column_args M) (hts : env.to_upper a.name ≠ "TIMESTAMP") :
    schema_builder.add_column env b a = .ok { b with
      columns_ := b.columns_ ++
        [{ idx := b.columns_.length % 2 ^ 16, offset := b.offset_, type := a.type,
           name := a.name, min := a.min, max := a.max }]
      offset_ := (b.offset_ + a.type.size) % env.offset_mod } := by
  unfold schema_builder.add_column
  rw [if_neg hts]

theorem add_column_layout {M : Type} (env : schema_env M) (b b1 : schema_builder M)
    (a : add_column_args M) (hinv : layout_invariant env b)
    (h : schema_builder.add_column env b a = .ok b1) : layout_invariant env b1 := by
  by_cases hts : env.to_upper a.name = "TIMESTAMP"
  · obtain ⟨hc, ho⟩ := add_column_timestamp env b b1 a hts h
    unfold layout_invariant
    rw [hc, ho]
    exact hinv
  · rw [add_column_plain env b a hts] at h
    cases h
    obtain ⟨hoff, hcols, hfirst⟩ := hinv
    refine ⟨?_, ?_, ?_⟩
    · simp only [sizes_sum_append]
      rw [hoff]
      simp [sizes_sum, Nat.add_mod]
    · intro i c hc
      simp only at hc
      by_cases hi : i < b.columns_.length
      · rw [List.getElem?_append_left hi] at hc
        simp only
        rw [List.take_append_of_le_length (le_of_lt hi)]
        exact hcols i c hc
      · have hle : b.columns_.length ≤ i := not_lt.1 hi
        rw [List.getElem?_append_right hle] at hc
        cases hsub : i - b.columns_.length with
        | zero =>
          rw [hsub] at hc
          simp only [List.getElem?_cons_zero, Option.some.injEq] at hc
          have hi2 : i = b.columns_.length := by omega
          rw [← hc, hi2]
          simp only
          rw [List.take_append_of_le_length (le_refl _), List.take_length]
          exact ⟨trivial, hoff⟩
        | succ n =>
          rw [hsub] at hc
          simp at hc
    · simp only
      cases hcs : b.columns_ with
      | nil =>
        rw [hcs] at hfirst
        simp at hfirst
      | cons hd tl =>
        rw [hcs] at hfirst
        simpa using hfirst

theorem add_columns_layout {M : Type} (env : schema_env M) (calls : List (add_column_args M))
    (b b1 : schema_builder M) (hinv : layout_invariant env b)
    (h : schema_builder.add_columns env calls b = .ok b1) : layout_invariant env b1 := by
  induction calls generalizing b with
  | nil =>
    simp only [schema_builder.add_columns, Except.ok.injEq] at h
    rw [← h]
    exact hinv
  | cons a rest ih =>
    simp only [schema_builder.add_columns] at h
    rcases hstep : schema_builder.add_column env b a with e | b2
    · rw [hstep] at h
      cases h
    · rw [hstep] at h
      exact ih b2 (add_column_layout env b b2 a hinv hstep) h

theorem record_size_loop_sum {M : Type} (env : schema_env M) (columns : List (column_t M))
    (acc : Nat) :
    record_size_loop env columns (acc % env.record_size_mod)
      = (acc + sizes_sum columns) % env.record_size_mod := by
  induction columns generalizing acc with
  | nil => simp [record_size_loop, sizes_sum]
  | cons c rest ih =>
    simp only [record_size_loop]
    rw [ih (acc % env.record_size_mod + c.type.size)]
    have h : sizes_sum (c :: rest) = c.type.size + sizes_sum rest := by
      simp [sizes_sum]
    rw [h]
    have h2 : (acc % env.record_size_mod + c.type.size + sizes_sum rest)
        = acc % env.record_size_mod + (c.type.size + sizes_sum rest) := by omega
    rw [h2, Nat.mod_add_mod]

theorem record_size_of_columns {M : Type} (env : schema_env M) (columns : List (column_t M)) :
    (schema_t.of_columns env columns).record_size
      = sizes_sum columns % env.record_size_mod := by
  have h := record_size_loop_sum env columns 0
  simp only [Nat.zero_mod, Nat.zero_add] at h
  exact h

end schema

namespace schema

theorem add_columns_plain {M : Type} (env : schema_env M) (calls : List (add_column_args M))
    (b : schema_builder M) (hplain : ∀ a ∈ calls, env.to_upper a.name ≠ "TIMESTAMP") :
    ∃ b1, schema_builder.add_columns env calls b = .ok b1 ∧
      b1.columns_.length = b.columns_.length + calls.length := by
  induction calls generalizing b with
  | nil => exact ⟨b, rfl, rfl⟩
  | cons a rest ih =>
    have ha := hplain a (List.mem_cons_self _ _)
    obtain ⟨b1, h1, h2⟩ := ih
      { b with
        columns_ := b.columns_ ++
          [{ idx := b.columns_.length % 2 ^ 16, offset := b.offset_, type := a.type,
             name := a.name, min := a.min, max := a.max }]
        offset_ := (b.offset_ + a.type.size) % env.offset_mod }
      fun a1 h => hplain a1 (List.mem_cons_of_mem _ h)
    refine ⟨b1, ?_, ?_⟩
    · simp only [schema_builder.add_columns, add_column_plain env b a ha]
      exact h1
    · rw [h2]
      simp only [List.length_append, List.length_singleton, List.length_cons, List.length_nil]
      omega

/-- C19 (the claim as stated fails). After 65536 calls of `add_column` with the name `c`
(none throws), the column at position 65536 has the index 0. -/
theorem column_index_wraps :
    ∃ b, schema_builder.add_columns env64 (List.replicate 65536 ⟨INT_TYPE, "c", 0, 1⟩)
        (schema_builder.init env64) = .ok b ∧
      ∃ c, b.get_columns[65536]? = some c ∧ c.idx = 0 ∧ c.idx ≠ 65536 := by
  obtain ⟨b, hrun, hlen⟩ := add_columns_plain env64
    (List.replicate 65536 ⟨INT_TYPE, "c", 0, 1⟩) (schema_builder.init env64)
    (fun a ha => by
      rw [List.eq_of_mem_replicate ha]
      decide)
  have hinv := add_columns_layout env64 _ _ b (init_layout env64) hrun
  have hlen1 : b.columns_.length = 65537 := by
    rw [hlen, List.length_replicate]
    rfl
  have hlt : 65536 < b.columns_.length := by omega
  refine ⟨b, hrun, b.columns_[65536], List.getElem?_eq_getElem hlt, ?_⟩
  have hidx := (hinv.2.1 65536 _ (List.getElem?_eq_getElem hlt)).1
  rw [hidx]
  decide

/-- C19 (amended). After any sequence of `add_column` calls of which none throws,
`get_columns()` has the `ULONG` column `TIMESTAMP` at position 0 with offset 0; the column
at position `i` has the index `i` reduced to 16 bits, so the index `i` when `i < 65536`;
its offset is the sum of the type sizes of the columns before it in the arithmetic of the
offset counter, so that sum itself when the sizes of all columns sum to less than the range
of the counter; an `add_column` whose name upper-cases to `TIMESTAMP` adds no column; and a
`schema_t` built from the columns has as `record_size` the sum of all type sizes in the
arithmetic of `record_size_`, so that sum itself when it is below the range. -/
theorem schema_layout {M : Type} (env : schema_env M) (calls : List (add_column_args M))
    (b : schema_builder M)
    (hrun : schema_builder.add_columns env calls (schema_builder.init env) = .ok b) :
    b.get_columns[0]? = some (column_t.mk 0 0 env.ULONG_TYPE "TIMESTAMP"
        (env.type_min env.ULONG_TYPE) (env.type_max env.ULONG_TYPE)) ∧
      (∀ i c, b.get_columns[i]? = some c →
        c.idx = i % 2 ^ 16 ∧ (i < 2 ^ 16 → c.idx = i) ∧
        c.offset = sizes_sum (b.get_columns.take i) % env.offset_mod ∧
        (sizes_sum b.get_columns < env.offset_mod →
          c.offset = sizes_sum (b.get_columns.take i))) ∧
      (∀ a b1, env.to_upper a.name = "TIMESTAMP" →
        schema_builder.add_column env b a = .ok b1 → b1.get_columns = b.get_columns) ∧
      (schema_t.of_columns env b.get_columns).record_size
        = sizes_sum b.get_columns % env.record_size_mod ∧
      (sizes_sum b.get_columns < env.record_size_mod →
        (schema_t.of_columns env b.get_columns).record_size = sizes_sum b.get_columns) := by
  obtain ⟨_, hcols, hfirst⟩ := add_columns_layout env calls _ b (init_layout env) hrun
  refine ⟨hfirst, ?_, ?_, record_size_of_columns env _, ?_⟩
  · intro i c hc
    obtain ⟨h1, h2⟩ := hcols i c hc
    refine ⟨h1, fun hi => ?_, h2, fun hsum => ?_⟩
    · rw [h1, Nat.mod_eq_of_lt hi]
    · rw [h2]
      exact Nat.mod_eq_of_lt (lt_of_le_of_lt (sizes_sum_take_le b.columns_ i) hsum)
  · intro a b1 hts hadd
    exact (add_column_timestamp env b b1 a hts hadd).1
  · intro hsum
    rw [record_size_of_columns, Nat.mod_eq_of_lt hsum]

/-- Instance of the amended C19: the calls `add_column(INT, "a")`,
`add_column(ULONG, "timestamp")`, `add_column(INT, "b")` leave the columns `TIMESTAMP`
(index 0, offset 0), `a` (index 1, offset 8) and `b` (index 2, offset 12), and the record
size 16. -/
theorem schema_layout_witness :
    schema_builder.add_columns env64
        [⟨INT_TYPE, "a", 0, 1⟩, ⟨env64.ULONG_TYPE, "timestamp", 0, 1⟩, ⟨INT_TYPE, "b", 0, 1⟩]
        (schema_builder.init env64)
      = .ok { user_provided_ts_ := true, offset_ := 16,
              columns_ := [⟨0, 0, env64.ULONG_TYPE, "TIMESTAMP", 0, 1⟩,
                ⟨1, 8, INT_TYPE, "a", 0, 1⟩, ⟨2, 12, INT_TYPE, "b", 0, 1⟩] } ∧
      (schema_t.of_columns env64
          [⟨0, 0, env64.ULONG_TYPE, "TIMESTAMP", 0, 1⟩,
            ⟨1, 8, INT_TYPE, "a", 0, 1⟩, ⟨2, 12, INT_TYPE, "b", 0, 1⟩]).record_size
        = sizes_sum [(⟨0, 0, env64.ULONG_TYPE, "TIMESTAMP", 0, 1⟩ : column_t Nat),
            ⟨1, 8, INT_TYPE, "a", 0, 1⟩, ⟨2, 12, INT_TYPE, "b", 0, 1⟩] ∧
      sizes_sum [(⟨0, 0, env64.ULONG_TYPE, "TIMESTAMP", 0, 1⟩ : column_t Nat),
            ⟨1, 8, INT_TYPE, "a", 0, 1⟩, ⟨2, 12, INT_TYPE, "b", 0, 1⟩] = 16 :=
  ⟨by decide,
    (schema_layout env64
      [⟨INT_TYPE, "a", 0, 1⟩, ⟨env64.ULONG_TYPE, "timestamp", 0, 1⟩, ⟨INT_TYPE, "b", 0, 1⟩]
      { user_provided_ts_ := true, offset_ := 16,
        columns_ := [⟨0, 0, env64.ULONG_TYPE, "TIMESTAMP", 0, 1⟩,
          ⟨1, 8, INT_TYPE, "a", 0, 1⟩, ⟨2, 12, INT_TYPE, "b", 0, 1⟩] }
      (by decide)).2.2.2.2 (by decide),
    by decide⟩

end schema

/-! ## The selection loop when every estimate is `UINT64_MAX`

In each of the inputs below the oracle answers `UINT64_MAX` for every range, so the test
`cost < min_cost` of the selection loop never holds and `min_id` keeps the content it had
before the loop (7 or 9 here, an index identifier that no column carries). -/

section sentinel

/-- C3 (at the failing input). The column `age` is indexed by index 0 (bucket 1, domain
`[0, 120]`) and the oracle answers `UINT64_MAX`. For the single predicate `age == 50` the
row of the table is the valid range `[50, 50]`, and for `age > 10` it is `[11, 120]`; the
first loop stores exactly these ranges under the index 0, but the optimizer emits
`index_op` on the index 7 with the default range `[0, 0]`, not the row of the table. -/
theorem single_predicate_at_sentinel :
    table_range (fun v => bucket_keys.to_key v 1) bucket_keys.incr bucket_keys.decr 0 120
        .EQ 50 = some (50, 50) ∧
      key_range_valid ((50 : Int), (50 : Int)) ∧
      accumulate_ranges (saturated_planner 7) [⟨1, .EQ, 50⟩] [] = .ok (some [(0, (50, 50))]) ∧
      optimize_minterm (saturated_planner 7) [⟨1, .EQ, 50⟩] = .ok (.index_op 7 (0, 0)) ∧
      optimize_minterm (saturated_planner 7) [⟨1, .EQ, 50⟩] ≠ .ok (.index_op 0 (50, 50)) ∧
      table_range (fun v => bucket_keys.to_key v 1) bucket_keys.incr bucket_keys.decr 0 120
        .GT 10 = some (11, 120) ∧
      optimize_minterm (saturated_planner 7) [⟨1, .GT, 10⟩] = .ok (.index_op 7 (0, 0)) := by
  decide

/-- C4 (at the failing input). The column `age` is indexed by index 0 (bucket 1, domain
`[0, 120]`) and the oracle answers `UINT64_MAX`. For `age >= 30 AND age <= 40` the
translated ranges are `[30, 120]` and `[0, 40]`, their `merge_range` is the valid range
`[30, 40]`, and the first loop stores it under the index 0; but the optimizer returns
`index_op` on the index 7 with the default range `[0, 0]`, not `[30, 40]` on the index of
the column. -/
theorem two_predicates_at_sentinel :
    translate_predicate (saturated_planner 7) ((saturated_planner 7).schema_ 1) ⟨1, .GE, 30⟩
        = .ok (30, 120) ∧
      translate_predicate (saturated_planner 7) ((saturated_planner 7).schema_ 1) ⟨1, .LE, 40⟩
        = .ok (0, 40) ∧
      merge_range ((30 : Int), (120 : Int)) (0, 40) = (30, 40) ∧
      key_range_valid (merge_range ((30 : Int), (120 : Int)) (0, 40)) ∧
      accumulate_ranges (saturated_planner 7) [⟨1, .GE, 30⟩, ⟨1, .LE, 40⟩] []
        = .ok (some [(0, (30, 40))]) ∧
      optimize_minterm (saturated_planner 7) [⟨1, .GE, 30⟩, ⟨1, .LE, 40⟩]
        = .ok (.index_op 7 (0, 0)) ∧
      optimize_minterm (saturated_planner 7) [⟨1, .GE, 30⟩, ⟨1, .LE, 40⟩]
        ≠ .ok (.index_op 0 (30, 40)) := by
  decide

/-- C6 (at the failing input). Field 1 is indexed by index 5 and field 2 by index 3, and
the oracle answers `UINT64_MAX`. For `field1 == 7 AND field2 == 9` the candidates are
`(3, [9, 9])` and `(5, [7, 7])`, with equal estimates, which are the least of all. The
optimizer returns neither the candidate with the smallest identifier nor any candidate when
`min_id` held 9 (`index_op` on 9 with the default range), and the candidate with the
larger identifier when `min_id` held 5. -/
theorem tie_break_at_sentinel :
    accumulate_ranges (saturated_tie_planner 9) [⟨1, .EQ, 7⟩, ⟨2, .EQ, 9⟩] []
        = .ok (some [(3, (9, 9)), (5, (7, 7))]) ∧
      entry_cost (saturated_tie_planner 9) (3, (9, 9))
        = entry_cost (saturated_tie_planner 9) (5, (7, 7)) ∧
      (∀ e ∈ [(3, ((9 : Int), (9 : Int))), (5, (7, 7))],
        entry_cost (saturated_tie_planner 9) (3, (9, 9))
          ≤ entry_cost (saturated_tie_planner 9) e) ∧
      optimize_minterm (saturated_tie_planner 9) [⟨1, .EQ, 7⟩, ⟨2, .EQ, 9⟩]
        = .ok (.index_op 9 (0, 0)) ∧
      optimize_minterm (saturated_tie_planner 9) [⟨1, .EQ, 7⟩, ⟨2, .EQ, 9⟩]
        ≠ .ok (.index_op 3 (9, 9)) ∧
      optimize_minterm (saturated_tie_planner 5) [⟨1, .EQ, 7⟩, ⟨2, .EQ, 9⟩]
        = .ok (.index_op 5 (7, 7)) := by
  decide

/-- C16 (at the failing input). The column `age` is indexed by index 0 (bucket 1, domain
`[0, 120]`) and the oracle answers `UINT64_MAX`. For
`age >= 30 AND age <= 40 AND age >= 35`, whose operators are all defined, the ranges on
the index 0 are `[30, 120]`, `[0, 40]`, `[35, 120]` with the valid intersection `[35, 40]`,
and no predicate is on an index 7. The optimizer returns `index_op` on the index 7 with
the range `[0, 0]`, which is the intersection of the ranges of no index: there is no
range on the index 7, and the intersection on the index 0 is `[35, 40]`. -/
theorem n_ary_accumulation_at_sentinel :
    (∀ p ∈ [(⟨1, .GE, 30⟩ : compiled_predicate Int), ⟨1, .LE, 40⟩, ⟨1, .GE, 35⟩],
        p.op.is_defined = true) ∧
      ranges_of_index (saturated_planner 7) [⟨1, .GE, 30⟩, ⟨1, .LE, 40⟩, ⟨1, .GE, 35⟩] 0
        = [(30, 120), (0, 40), (35, 120)] ∧
      intersect_all
          (ranges_of_index (saturated_planner 7) [⟨1, .GE, 30⟩, ⟨1, .LE, 40⟩, ⟨1, .GE, 35⟩] 0)
        = some (35, 40) ∧
      optimize_minterm (saturated_planner 7) [⟨1, .GE, 30⟩, ⟨1, .LE, 40⟩, ⟨1, .GE, 35⟩]
        = .ok (.index_op 7 (0, 0)) ∧
      intersect_all
          (ranges_of_index (saturated_planner 7) [⟨1, .GE, 30⟩, ⟨1, .LE, 40⟩, ⟨1, .GE, 35⟩] 7)
        = none := by
  decide

/-- C18 (at the failing input). The column `age` is indexed by index 0 (bucket 1, domain
`[0, 120]`) and the oracle answers `UINT64_MAX`. The plan returned for the expression with
the sole minterm `age == 50` holds `index_op` on the index 7 (with the range `[0, 0]`,
which satisfies `low <= high`), and no predicate of the expression is on an indexed column
with the index identifier 7: the only index identifier of the schema is 0. -/
theorem index_range_origin_at_sentinel :
    plan (saturated_planner 7) [[⟨1, .EQ, 50⟩]] = .ok [.index_op 7 (0, 0)] ∧
      key_range_valid ((0 : Int), (0 : Int)) ∧
      (∀ m ∈ [[(⟨1, .EQ, 50⟩ : compiled_predicate Int)]], ∀ p ∈ m,
        ¬ (((saturated_planner 7).schema_ p.field_idx).is_indexed = true ∧ p.op ≠ .NEQ ∧
          ((saturated_planner 7).schema_ p.field_idx).index_id = 7)) ∧
      ((saturated_planner 7).schema_ 1).index_id = 0 := by
  decide

end sentinel

end confluo
